import Mathlib

/-!
# Verification of the L2 command-line programs

Shallow embeddings of four programs of the repository, each in its own
namespace: the recursive site mirror (`cmd/L2.10`, namespace `L2_10`), string
unpacking (`cmd/L2.3`, `L2_3`), anagram sets (`cmd/L2.5`, `L2_5`) and field
selection (`cmd/L2.7`, `L2_7`). The definitions of all four come first, the
theorems after them.

## Recursive site mirror (`cmd/L2.10/main.go`)

A shallow embedding of the mirror's `download` / `parseHTML` pair.

* Pure pieces of the source (the depth gate, the visited-set critical section,
  the path mapping, the per-element link selection) are Lean functions.
* The process state (the `visited` map, the `sem` channel, the files written,
  the goroutines) is an explicit record; `download` and `parseHTML` advance one
  goroutine by one atomic action, and `run` interleaves goroutines along an
  arbitrary schedule, with the answers of the outside world (HTTP responses,
  storage failures, parsed documents) supplied step by step.
* Library code the program calls (`path/filepath`, `net/url`, `goquery`) is
  modelled after its documented behaviour on a Unix host, or taken as a
  parameter (`Env`).
* `parseHTML` takes the document of line 128 from the answers of a schedule;
  `NewDocument` and `genuine` say which answers `goquery.NewDocument` can give
  on the local path it is called with.
-/

namespace L2_10

/-! ## `path/filepath` on a Unix host -/

/-- The path separator test `os.IsPathSeparator` (Unix: only the slash). Paths are
handled as character lists; the slash and the dot are ASCII, so working on
characters or on the bytes of the UTF-8 encoding gives the same result. -/
def isSep (c : Char) : Bool := c == '/'

/-- The backward scan of the `..` case of `filepath.Clean`:
`for out.w > dotdot && !os.IsPathSeparator(out.index(out.w)) { out.w-- }`,
started at write index `w`; returns the final write index. -/
def backtrack (out : List Char) (dotdot : Nat) : Nat → Nat
  | 0 => 0
  | w + 1 =>
    if w + 1 > dotdot && !isSep (out.getD (w + 1) '/') then backtrack out dotdot w
    else w + 1

/-- The main loop of `filepath.Clean`. `path` is the unread input `path[r:]`, `out`
the contents of the output buffer (`out.w = out.length`), `dotdot` the index
below which the buffer may not be backtracked. One unit of fuel per iteration;
every iteration reads at least one character. -/
def cleanLoop (rooted : Bool) : Nat → List Char → List Char → Nat → List Char
  | 0, _, out, _ => out
  | fuel + 1, path, out, dotdot =>
    match path with
    | [] => out
    | c :: rest =>
      if isSep c then
        -- empty path element
        cleanLoop rooted fuel rest out dotdot
      else if c == '.' && (rest.isEmpty || rest.head?.any isSep) then
        -- . element
        cleanLoop rooted fuel rest out dotdot
      else if c == '.' && rest.head? == some '.' &&
          (rest.tail.isEmpty || rest.tail.head?.any isSep) then
        -- .. element: remove to last separator
        if out.length > dotdot then
          cleanLoop rooted fuel rest.tail
            (out.take (backtrack out dotdot (out.length - 1))) dotdot
        else if !rooted then
          let out1 := (if out.length > 0 then out ++ ['/'] else out) ++ ['.', '.']
          cleanLoop rooted fuel rest.tail out1 out1.length
        else
          cleanLoop rooted fuel rest.tail out dotdot
      else
        -- real path element: add slash if needed, copy element
        let out1 :=
          if (rooted && out.length != 1) || (!rooted && out.length != 0) then out ++ ['/']
          else out
        cleanLoop rooted fuel (path.dropWhile (fun x => !isSep x))
          (out1 ++ path.takeWhile (fun x => !isSep x)) dotdot

/-- The function `filepath.Clean` on character lists. -/
def cleanChars (path : List Char) : List Char :=
  match path with
  | [] => ['.']
  | c :: rest =>
    let rooted := isSep c
    let out :=
      if rooted then cleanLoop true path.length rest ['/'] 1
      else cleanLoop false path.length path [] 0
    if out.isEmpty then ['.'] else out

/-- The function `filepath.Clean`. -/
def Clean (path : String) : String := ⟨cleanChars path.data⟩

/-- The function `filepath.Join` for two elements: empty elements are ignored, the
rest is joined with the separator and cleaned; all empty gives the empty string. -/
def Join (a b : String) : String :=
  if a ≠ "" then Clean (a ++ "/" ++ b)
  else if b ≠ "" then Clean b
  else ""

/-- The function `filepath.IsAbs` (Unix: the path starts with a slash). -/
def IsAbs (path : String) : Bool := path.data.head?.any isSep

/-- The function `filepath.FromSlash` (Unix: the separator is the slash, so the path
is returned as it is). -/
def FromSlash (path : String) : String := path

/-- The part of `path` up to and including its last separator (`path[:i+1]` in
`filepath.Dir`). -/
def dirPart : List Char → List Char
  | [] => []
  | c :: rest =>
    if rest.any isSep then c :: dirPart rest
    else if isSep c then [c] else []

/-- The function `filepath.Dir`: all but the last element of the path, cleaned. -/
def Dir (path : String) : String := ⟨cleanChars (dirPart path.data)⟩

/-! ## Data model -/

/-- The fields of `net/url.URL` the program reads. -/
structure URL where
  Scheme : String
  Host : String
  Path : String
  RawQuery : String
  Fragment : String
  deriving DecidableEq, Repr

/-- What the program reads of an `http.Response`: the status code, the value of
`resp.Header.Get("Content-Type")` and the body. -/
structure Response where
  StatusCode : Int
  ContentType : String
  Body : String
  deriving DecidableEq, Repr

/-- An element node of a parsed document: its tag and its attributes in document
order (`html.Node.Data`, `html.Node.Attr`). -/
structure Element where
  tag : String
  attrs : List (String × String)
  deriving DecidableEq, Repr

/-- The configuration and the pure library functions the program is run with:
the flag `-depth` (the global `recursionDepth`, never written after `init`),
`(*url.URL).String` and `(*url.URL).Parse` (`none` for an error). -/
structure Env where
  recursionDepth : Int
  urlString : URL → String
  urlParse : URL → String → Option URL

/-- Addition of one on Go's 64-bit `int` (`depth+1`), wrapping on overflow. -/
def incr (depth : Int) : Int := (depth + 1 + 2 ^ 63) % 2 ^ 64 - 2 ^ 63

/-- The capacity of the channel `sem` (`make(chan struct{}, 10)`). -/
def semCap : Nat := 10

/-! ## Pure pieces of `download` -/

/-- The depth gate of `download` (lines 56-58): true when the call returns at once. -/
def depthGate (recursionDepth depth : Int) : Bool :=
  decide (recursionDepth > 0) && decide (depth > recursionDepth)

/-- The critical section of `download` (lines 61-67) on the map `visited`, read as
the function `key ↦ visited[key]` (a missing key reads `false`): returns whether
the call goes on to fetch, and the map after `mutex.Unlock()`. -/
def claim (visited : String → Bool) (key : String) : Bool × (String → Bool) :=
  if visited key then (false, visited)
  else (true, Function.update visited key true)

/-- The value of `relPath` after lines 84-89. -/
def relPath (path : String) : String :=
  if path = "" ∨ path = "/" then "index.html"
  else if !IsAbs path then FromSlash path
  else path

/-- The local file path of `download` (lines 84-91):
`filepath.Join(baseDir, relPath)`. -/
def filePath (baseDir : String) (u : URL) : String := Join baseDir (relPath u.Path)

/-- The test of line 118 on the response's `Content-Type` header. -/
def isHTML (resp : Response) : Bool := resp.ContentType == "text/html; charset=utf-8"

/-- The constant `http.StatusOK`. -/
def StatusOK : Int := 200

/-! ## Pure pieces of `parseHTML` -/

/-- The method `(*goquery.Selection).Attr` on a single element: the value of the
first attribute with that name, and whether there is one. -/
def Attr (s : Element) (attrName : String) : String × Bool :=
  match s.attrs.find? (fun a => a.1 == attrName) with
  | some a => (a.2, true)
  | none => ("", false)

/-- The method `(*goquery.Selection).AttrOr`. -/
def AttrOr (s : Element) (attrName defaultValue : String) : String :=
  match Attr s attrName with
  | (val, true) => val
  | (_, false) => defaultValue

/-- The selection `doc.Find("a, img, link, script")`: the elements with one of the
four tags, in document order. -/
def Find (doc : List Element) : List Element :=
  doc.filter (fun e => e.tag == "a" || e.tag == "img" || e.tag == "link" || e.tag == "script")

/-- Lines 136-141 of the `Each` callback: the string handed to `u.Parse`, or `none`
when the callback returns at line 140. -/
def link (s : Element) : Option String :=
  let attr := AttrOr s "data-src" (AttrOr s "src" (AttrOr s "href" ""))
  match Attr s attr with
  | (l, true) => some l
  | (_, false) => none

/-- The `Each` callback of `parseHTML` (lines 136-156) for source URL `u`: the URL
it calls `download` on, or `none` when it returns before line 156. -/
def target (env : Env) (u : URL) (s : Element) : Option URL :=
  match link s with
  | none => none
  | some l =>
    match env.urlParse u l with
    | none => none
    | some absURL => if absURL.Host ≠ u.Host then none else some absURL

/-! ## Process state -/

/-- What a step leaves in the history of the run (a ghost variable: the program
does not read it). -/
inductive Event where
  /-- The body of `download(u, _, depth)` is entered. -/
  | call (u : URL) (depth : Int)
  /-- The call `http.Get(u.String())` of line 70 is made. -/
  | get (u : URL) (depth : Int)
  /-- The call `os.MkdirAll(fileDir, 0755)` of line 95 succeeds. -/
  | mkdirAll (fileDir : String)
  /-- The call `os.Create(filePath)` of line 102 succeeds. -/
  | create (filePath : String)
  /-- The call `io.Copy(f, resp.Body)` of line 109 leaves `data` in the file. -/
  | copy (filePath : String) (data : String)
  /-- The `go` statement of line 119 starts `parseHTML(u, _, depth, filePath)`. -/
  | go (u : URL) (depth : Int) (filePath : String)
  /-- The send `sem <- struct{}{}` of line 123 completes. -/
  | send
  /-- The deferred receive `<-sem` of line 120 completes. -/
  | recv
  deriving DecidableEq, Repr

/-- The program points of `download` at which a call can stand between two atomic
actions. -/
inductive Pc where
  /-- Line 55: nothing done yet. -/
  | enter
  /-- Line 70: the URL is claimed, `http.Get` not yet called. -/
  | get
  /-- Line 95: the response is in, `os.MkdirAll` not yet called. -/
  | mkdirAll (resp : Response)
  /-- Line 102: `os.Create` not yet called. -/
  | create (resp : Response)
  /-- Line 109: `io.Copy` not yet called. -/
  | copy (resp : Response)
  /-- Line 118: the body is stored, the content type not yet tested. -/
  | dispatch (resp : Response)
  /-- Line 123: the goroutine is started, the send on `sem` not yet done. -/
  | send
  deriving DecidableEq, Repr

/-- A running call `download(u, baseDir, depth)`. -/
structure Call where
  u : URL
  baseDir : String
  depth : Int
  pc : Pc
  deriving DecidableEq, Repr

/-- The program points of the function literal of line 119 (`parseHTML` and the
deferred receive). -/
inductive Loc where
  /-- Line 128: `goquery.NewDocument` not yet called. -/
  | newDocument
  /-- Line 135: inside `Each`, with the elements still to be visited. -/
  | each (todo : List Element)
  /-- Line 120: `parseHTML` has returned, the deferred `<-sem` not yet done. -/
  | recv
  /-- The goroutine has ended. -/
  | exited
  deriving DecidableEq, Repr

/-- A running `parseHTML(u, baseDir, depth, filePath)` inside the function literal
of line 119. -/
structure Task where
  u : URL
  baseDir : String
  depth : Int
  filePath : String
  loc : Loc
  deriving DecidableEq, Repr

/-- A goroutine: the main goroutine has no `task`; a goroutine started at line 119
has one. `call` is the call of `download` the goroutine is executing, if any
(made by `main`, or by the `Each` callback at line 156). -/
structure Goroutine where
  task : Option Task
  call : Option Call
  deriving DecidableEq, Repr

/-- The state shared by all goroutines: the map `visited`, the number of values
in the channel `sem`, the regular files of the file system with their contents,
and the history. -/
structure Shared where
  visited : String → Bool
  sem : Nat
  files : String → Option String
  trace : List Event

/-- The state of the process. -/
structure State where
  sh : Shared
  gs : List Goroutine

/-- What the outside world answers to the action of one step: the result of
`http.Get` (`none` for an error), whether the storage call succeeds, how many
characters `io.Copy` stores when it fails, and the elements of the document
`goquery.NewDocument` returns (`none` for an error). A step reads only the
answer to its own action. -/
structure Input where
  resp : Option Response
  ok : Bool
  written : Nat
  doc : Option (List Element)
  deriving DecidableEq, Repr

/-- The state with one more event in its history. -/
def Shared.log (sh : Shared) (e : Event) : Shared := { sh with trace := sh.trace ++ [e] }

/-- The outcome of one atomic action of a goroutine: the shared state, what the
goroutine becomes, and the goroutine it has started, if any. -/
structure Outcome (α : Type) where
  sh : Shared
  next : α
  spawned : Option Goroutine

/-! ## `download` and `parseHTML`, one atomic action at a time -/

/-- One atomic action of a call of `download` (lines 55-125). The result is `none`
when the call is blocked (a send on a full `sem`); `next = none` when the call
returns. -/
def download (env : Env) (inp : Input) (sh : Shared) (c : Call) : Option (Outcome (Option Call)) :=
  match c.pc with
  | .enter =>
    let sh := sh.log (.call c.u c.depth)
    -- lines 56-58
    if depthGate env.recursionDepth c.depth then some ⟨sh, none, none⟩
    else
      -- lines 61-67
      match claim sh.visited (env.urlString c.u) with
      | (false, _) => some ⟨sh, none, none⟩
      | (true, visited) =>
        some ⟨{ sh with visited := visited }, some { c with pc := .get }, none⟩
  | .get =>
    let sh := sh.log (.get c.u c.depth)
    -- lines 70-81
    match inp.resp with
    | none => some ⟨sh, none, none⟩
    | some resp =>
      if resp.StatusCode ≠ StatusOK then some ⟨sh, none, none⟩
      else some ⟨sh, some { c with pc := .mkdirAll resp }, none⟩
  | .mkdirAll resp =>
    -- lines 84-99
    if inp.ok then
      some ⟨sh.log (.mkdirAll (Dir (filePath c.baseDir c.u))),
            some { c with pc := .create resp }, none⟩
    else some ⟨sh, none, none⟩
  | .create resp =>
    -- lines 102-106
    if inp.ok then
      some ⟨{ sh.log (.create (filePath c.baseDir c.u)) with
                files := Function.update sh.files (filePath c.baseDir c.u) (some "") },
            some { c with pc := .copy resp }, none⟩
    else some ⟨sh, none, none⟩
  | .copy resp =>
    -- lines 109-113
    let data := if inp.ok then resp.Body else ⟨resp.Body.data.take inp.written⟩
    let sh := { sh.log (.copy (filePath c.baseDir c.u) data) with
                files := Function.update sh.files (filePath c.baseDir c.u) (some data) }
    if inp.ok then some ⟨sh, some { c with pc := .dispatch resp }, none⟩
    else some ⟨sh, none, none⟩
  | .dispatch resp =>
    -- lines 118-122
    if isHTML resp then
      some ⟨sh.log (.go c.u c.depth (filePath c.baseDir c.u)), some { c with pc := .send },
            some ⟨some ⟨c.u, c.baseDir, c.depth, filePath c.baseDir c.u, .newDocument⟩,
                  none⟩⟩
    else some ⟨sh, none, none⟩
  | .send =>
    -- line 123
    if sh.sem < semCap then some ⟨{ sh.log .send with sem := sh.sem + 1 }, none, none⟩
    else none

/-- One atomic action of the function literal of line 119 while it is not inside
a call of `download`: `parseHTML` (lines 127-158), then the deferred receive
(line 120). The second component of `next` is the call of `download` made at
line 156, if any. The result is `none` when the goroutine is blocked (a receive
on an empty `sem`) or has ended. -/
def parseHTML (env : Env) (inp : Input) (sh : Shared) (t : Task) :
    Option (Outcome (Task × Option Call)) :=
  match t.loc with
  | .newDocument =>
    -- lines 128-132, and the selection of line 135
    match inp.doc with
    | none => some ⟨sh, ({ t with loc := .recv }, none), none⟩
    | some doc => some ⟨sh, ({ t with loc := .each (Find doc) }, none), none⟩
  | .each [] => some ⟨sh, ({ t with loc := .recv }, none), none⟩
  | .each (s :: todo) =>
    -- lines 136-156
    match target env t.u s with
    | none => some ⟨sh, ({ t with loc := .each todo }, none), none⟩
    | some absURL =>
      some ⟨sh, ({ t with loc := .each todo },
                 some ⟨absURL, t.baseDir, incr t.depth, .enter⟩), none⟩
  | .recv =>
    -- line 120
    if sh.sem > 0 then
      some ⟨{ sh.log .recv with sem := sh.sem - 1 }, ({ t with loc := .exited }, none), none⟩
    else none
  | .exited => none

/-- One atomic action of a goroutine: of the call of `download` it is in, else of
its `parseHTML` task. `none` when the goroutine is blocked or has ended. -/
def Goroutine.step (env : Env) (inp : Input) (sh : Shared) (g : Goroutine) :
    Option (Outcome Goroutine) :=
  match g.call with
  | some c =>
    match download env inp sh c with
    | none => none
    | some o => some ⟨o.sh, { g with call := o.next }, o.spawned⟩
  | none =>
    match g.task with
    | none => none
    | some t =>
      match parseHTML env inp sh t with
      | none => none
      | some o => some ⟨o.sh, ⟨some o.next.1, o.next.2⟩, o.spawned⟩

/-- One step of the process: goroutine number `i` performs its next atomic action.
`none` when there is no such goroutine, or it is blocked or has ended. -/
def step (env : Env) (s : State) (i : Nat) (inp : Input) : Option State :=
  match s.gs[i]? with
  | none => none
  | some g =>
    match g.step env inp s.sh with
    | none => none
    | some o => some ⟨o.sh, s.gs.set i o.next ++ o.spawned.toList⟩

/-- The process run along a schedule: at each entry the named goroutine takes one
step with the given answer of the outside world; an entry whose goroutine cannot
step leaves the state as it is. The end of the process when `main` returns is
not modelled: it only removes steps, so what holds along every schedule here
holds along every execution of the program. -/
def run (env : Env) (s : State) : List (Nat × Input) → State
  | [] => s
  | (i, inp) :: rest => run env ((step env s i inp).getD s) rest

/-- The state in which `main` is about to call `download(u, outputDir, 0)` (line 52):
nothing visited, `sem` empty, no file written. -/
def start (u : URL) (outputDir : String) : State :=
  ⟨⟨fun _ => false, 0, fun _ => none, []⟩, [⟨none, some ⟨u, outputDir, 0, .enter⟩⟩]⟩

/-! ## Reference definitions, following the words of the specification -/

/-- The contract `tryClaim` of the specification's visited set, on the list of
claimed URLs: true, and the URL marked claimed, if it was not claimed before;
false, and nothing changed, if it was. -/
def tryClaim (claimed : List String) (url : String) : Bool × List String :=
  if url ∈ claimed then (false, claimed) else (true, url :: claimed)

/-- The map `visited` that marks exactly the URLs of a list. -/
def marks (claimed : List String) : String → Bool := fun k => decide (k ∈ claimed)

/-- The link of an element by the precedence of the specification: the value of its
`data-src` attribute if present, otherwise of `src`, otherwise of `href`;
`none` when it has none of the three. -/
def linkByPrecedence (s : Element) : Option String :=
  match Attr s "data-src" with
  | (v, true) => some v
  | (_, false) =>
    match Attr s "src" with
    | (v, true) => some v
    | (_, false) =>
      match Attr s "href" with
      | (v, true) => some v
      | (_, false) => none

/-- The segments of a path, read left to right: its maximal runs of characters
other than the slash. `cur` is the run being read. -/
def segmentsAux (cur : List Char) : List Char → List (List Char)
  | [] => if cur.isEmpty then [] else [cur]
  | c :: rest =>
    if isSep c then
      if cur.isEmpty then segmentsAux [] rest else cur :: segmentsAux [] rest
    else segmentsAux (cur ++ [c]) rest

/-- The segments of a path: `/docs//readme/` has the segments `docs` and `readme`. -/
def segments (path : String) : List String := (segmentsAux [] path.data).map String.mk

/-- Path segments joined by single slashes. -/
def slashJoin : List String → String
  | [] => ""
  | [x] => x
  | x :: y :: rest => x ++ "/" ++ slashJoin (y :: rest)

/-- The path mapping of the specification: the mirror root followed by
`index.html` when the URL path is empty or exactly `/`, and by the segments of
the URL path otherwise, in the separator convention of the host (the segments
joined by single slashes, behind a leading slash when the root is absolute). -/
def mapRef (root path : String) : String :=
  (if IsAbs root then "/" else "") ++
    slashJoin (segments root ++
      (if path = "" ∨ path = "/" then ["index.html"] else segments path))

/-- No segment of the path is `.` or `..`. -/
def NoDots (path : String) : Prop :=
  ∀ x ∈ segmentsAux [] path.data, x ≠ ['.'] ∧ x ≠ ['.', '.']

/-- Whether a path has a `.` or `..` segment can be computed. -/
instance (path : String) : Decidable (NoDots path) := by
  unfold NoDots
  infer_instance

/-- The characters of a path segment that `filepath.Clean` copies as it is: not
empty, without a slash, and neither `.` nor `..`. -/
def OrdinaryChars (x : List Char) : Prop :=
  x ≠ [] ∧ (∀ c ∈ x, isSep c = false) ∧ x ≠ ['.'] ∧ x ≠ ['.', '.']

/-- The rest of a path after a segment: nothing, or a separator and more. -/
def AtBoundary (rest : List Char) : Prop := rest = [] ∨ ∃ r, rest = '/' :: r

/-- Whether the loop of `filepath.Clean` writes a separator before the next
segment (`rooted && out.w != 1 || !rooted && out.w != 0`). -/
def needSep (rooted : Bool) (out : List Char) : Bool :=
  (rooted && out.length != 1) || (!rooted && out.length != 0)

/-- The segments of a list, each behind one separator. -/
def behindSeps (segs : List (List Char)) : List Char :=
  segs.flatMap fun x => '/' :: x

/-! ## Derived notions used in the statements -/

/-- The URLs `parseHTML` calls `download` on for a document, in order: the `Each`
callback over the selection of line 135. -/
def targets (env : Env) (u : URL) (doc : List Element) : List URL :=
  (Find doc).filterMap (target env u)

/-- The URL strings `http.Get` has been called with, in order. -/
def fetched (env : Env) (trace : List Event) : List String :=
  trace.filterMap fun e =>
    match e with
    | .get u _ => some (env.urlString u)
    | _ => none

/-- The URL string a goroutine has claimed and is about to fetch, if it stands
between the critical section and `http.Get`. -/
def pendKey (env : Env) (g : Goroutine) : Option String :=
  match g.call with
  | some c => if c.pc = .get then some (env.urlString c.u) else none
  | none => none

/-- The invariant behind at-most-once fetch, relative to the initial map
`visited0`: the URL strings fetched or claimed-and-about-to-be-fetched are
pairwise distinct, are marked in `visited`, and were not marked initially; and
`visited` only grows. -/
def Once (env : Env) (visited0 : String → Bool) (s : State) : Prop :=
  (fetched env s.sh.trace ++ s.gs.filterMap (pendKey env)).Nodup ∧
  (∀ k ∈ fetched env s.sh.trace ++ s.gs.filterMap (pendKey env),
    s.sh.visited k = true ∧ visited0 k = false) ∧
  (∀ k, visited0 k = true → s.sh.visited k = true)

/-- A state in which no fetch has been made or prepared: the history is empty and
every call of `download` in it stands at its first line. -/
def Fresh (s : State) : Prop :=
  s.sh.trace = [] ∧ ∀ g ∈ s.gs, ∀ c, g.call = some c → c.pc = .enter

/-- Calls past the depth gate, and fetches made, are within the limit `N`. -/
def WithinDepth (N : Int) (s : State) : Prop :=
  (∀ g ∈ s.gs, ∀ c, g.call = some c → c.pc ≠ .enter → c.depth ≤ N) ∧
  (∀ u d, Event.get u d ∈ s.sh.trace → d ≤ N)

/-- Every call and task of a goroutine is on a URL of host `h`. -/
def Goroutine.onHost (h : String) (g : Goroutine) : Prop :=
  (∀ c, g.call = some c → c.u.Host = h) ∧ (∀ t, g.task = some t → t.u.Host = h)

/-- Every call of `download`, running or recorded, and every `parseHTML` task is on
a URL of host `h`. -/
def SameHost (h : String) (s : State) : Prop :=
  (∀ g ∈ s.gs, g.onHost h) ∧ (∀ u d, Event.call u d ∈ s.sh.trace → u.Host = h)

/-- An event with its depth set to zero. -/
def Event.eraseDepth : Event → Event
  | .call u _ => .call u 0
  | .get u _ => .get u 0
  | .go u _ f => .go u 0 f
  | e => e

/-- A call with its depth set to zero. -/
def Call.eraseDepth (c : Call) : Call := { c with depth := 0 }

/-- A task with its depth set to zero. -/
def Task.eraseDepth (t : Task) : Task := { t with depth := 0 }

/-- A goroutine with its depths set to zero. -/
def Goroutine.eraseDepth (g : Goroutine) : Goroutine :=
  ⟨g.task.map Task.eraseDepth, g.call.map Call.eraseDepth⟩

/-- The shared state with the depths of its history set to zero. -/
def Shared.eraseDepth (sh : Shared) : Shared :=
  { sh with trace := sh.trace.map Event.eraseDepth }

/-- The state with every depth in it set to zero: what is left of a state when
the depths of its calls, tasks and events are not looked at. -/
def State.eraseDepth (s : State) : State := ⟨s.sh.eraseDepth, s.gs.map Goroutine.eraseDepth⟩

/-! ## A small site, for concrete runs -/

/-- The URL `http://site/a`. -/
def siteA : URL := ⟨"http", "site", "/a", "", ""⟩

/-- The URL `http://site/b`. -/
def siteB : URL := ⟨"http", "site", "/b", "", ""⟩

/-- The URL `http://other/c`. -/
def otherC : URL := ⟨"http", "other", "/c", "", ""⟩

/-- The string of a URL without query and fragment. -/
def siteString (u : URL) : String := u.Scheme ++ "://" ++ u.Host ++ u.Path

/-- Resolution of the three absolute references of the small site. -/
def siteParse (_ : URL) (ref : String) : Option URL :=
  if ref = "http://site/a" then some siteA
  else if ref = "http://site/b" then some siteB
  else if ref = "http://other/c" then some otherC
  else none

/-- The small site crawled with `-depth N`. -/
def siteEnv (N : Int) : Env := ⟨N, siteString, siteParse⟩

/-- A page with two anchors, to `http://site/b` and to `http://other/c`. -/
def twoAnchors : List Element :=
  [⟨"a", [("href", "http://site/b")]⟩, ⟨"a", [("href", "http://other/c")]⟩]

/-- A page whose two anchors carry, besides `href`, a `data-src` attribute with the
value `href`. -/
def twoNamedAnchors : List Element :=
  [⟨"a", [("data-src", "href"), ("href", "http://site/b")]⟩,
   ⟨"a", [("data-src", "href"), ("href", "http://other/c")]⟩]

/-- An answer of the outside world: a response with the given status, content
type and body; storage succeeds; the document parsed is `doc`. -/
def answer (status : Int) (contentType body : String) (doc : List Element) : Input :=
  ⟨some ⟨status, contentType, body⟩, true, 0, some doc⟩

/-- The answer for an HTML page of the small site. -/
def htmlPage : Input := answer 200 "text/html; charset=utf-8" "<html>" twoNamedAnchors

/-- Two goroutines about to call `download` on `http://site/a` at the same time. -/
def twoCallers : State :=
  ⟨⟨fun _ => false, 0, fun _ => none, []⟩,
   [⟨none, some ⟨siteA, "out", 0, .enter⟩⟩,
    ⟨none, some ⟨siteA, "out", 0, .enter⟩⟩]⟩

/-! ## Counting goroutines and tokens -/

/-- Whether a goroutine is a `parseHTML` task that has been started and has not
yet ended (its deferred receive included). -/
def Goroutine.live (g : Goroutine) : Bool :=
  match g.task with
  | some t => t.loc != .exited
  | none => false

/-- The number of `parseHTML` tasks in flight: started by the `go` statement of
line 119 and not yet ended. -/
def inFlight (s : State) : Nat := s.gs.countP Goroutine.live

/-- Whether a goroutine stands in a call of `download` at the send of line 123:
it has started a task and not yet put its token into `sem`. -/
def Goroutine.sending (g : Goroutine) : Bool :=
  match g.call with
  | some c => c.pc == .send
  | none => false

/-- The number of calls of `download` standing at the send of line 123. -/
def sending (s : State) : Nat := s.gs.countP Goroutine.sending

/-- Whether an event is the start of a task by the `go` statement of line 119. -/
def Event.isGo : Event → Bool
  | .go _ _ _ => true
  | _ => false

/-- The number of tasks started in a history. -/
def spawns (trace : List Event) : Nat := trace.countP Event.isGo

/-- The number of tokens put into `sem` in a history (sends of line 123). -/
def sends (trace : List Event) : Nat := trace.count .send

/-- The number of tokens taken out of `sem` in a history (receives of line 120). -/
def recvs (trace : List Event) : Nat := trace.count .recv

/-- The bookkeeping of tasks and tokens: every task started has its send done or
pending at line 123, and its receive done or the task still in flight; `sem`
holds the tokens sent and not yet received, at most its capacity. -/
def Balanced (s : State) : Prop :=
  sends s.sh.trace + sending s = spawns s.sh.trace ∧
  recvs s.sh.trace + inFlight s = spawns s.sh.trace ∧
  s.sh.sem + recvs s.sh.trace = sends s.sh.trace ∧
  s.sh.sem ≤ semCap

/-! ## A chain of pages, for concrete runs -/

/-- Resolution of a reference taken as the path of a URL on `site`. -/
def chainParse (_ : URL) (ref : String) : Option URL := some ⟨"http", "site", ref, "", ""⟩

/-- A site crawled without depth limit whose references are paths. -/
def chainEnv : Env := ⟨0, siteString, chainParse⟩

/-- The answer for an HTML page whose only link, an anchor with `data-src="href"`,
goes to `path`. -/
def chainPage (path : String) : Input :=
  answer 200 "text/html; charset=utf-8" "<html>"
    [⟨"a", [("data-src", "href"), ("href", path)]⟩]

/-- The schedule in which goroutine `i` parses its page, calls `download` on the
link to the first path and runs that call up to the send of line 123, then
goroutine `i + 1`, started by that call, does the same with the next path, and
so on; no goroutine performs its send. -/
def chainSchedule : Nat → List String → List (Nat × Input)
  | _, [] => []
  | i, p :: ps => List.replicate 8 (i, chainPage p) ++ chainSchedule (i + 1) ps

/-- The run of the crawl of `http://site/0`: `main` runs `download` up to the send,
then ten tasks in a row each follow one link up to the send. -/
def chainRun : State :=
  run chainEnv (start ⟨"http", "site", "/0", "", ""⟩ "out")
    (List.replicate 6 (0, chainPage "/1") ++
      chainSchedule 1 ["/1", "/2", "/3", "/4", "/5", "/6", "/7", "/8", "/9", "/10"])

/-! ## `goquery.NewDocument` on a local path

`parseHTML` hands the local file path of the stored page to
`goquery.NewDocument`, which takes a URL and fetches it with `http.Get`. -/

/-- Whether `http.Get(url)` can send a request. `http.Get` parses `url` with
`url.Parse` and gives the request to the transport, which refuses a URL whose
scheme is not `http` or `https` ("unsupported protocol scheme") or whose host is
empty ("no Host in request URL"); `url.Parse` reads a host only from an
authority, which is written `//` behind the scheme. A string without `//` is
therefore never requested. The test here is the `//` alone, so it lets through
every URL that can be requested, and more. -/
def requestable (url : String) : Bool := decide (['/', '/'] <:+: url.data)

/-- The function `goquery.NewDocument(url)`: `http.Get(url)`, then the body of the
response parsed. `served` is the document the outside world gives to a request
(`none` when the request or the parsing fails); without a request the result is
the error of `http.Get`. -/
def NewDocument (url : String) (served : Option (List Element)) : Option (List Element) :=
  if requestable url then served else none

/-- Whether `inp` can be the answer to the next action of goroutine `i`: when that
action is the call `goquery.NewDocument(filePath)` of line 128, the document of
`inp` is a result of `NewDocument` on that path. -/
def genuineAt (s : State) (i : Nat) (inp : Input) : Bool :=
  match s.gs[i]? with
  | some ⟨some t, none⟩ =>
    t.loc != .newDocument || decide (inp.doc = NewDocument t.filePath inp.doc)
  | _ => true

/-- Whether every answer of a schedule, at the state in which the run reaches it,
is one the program can receive. -/
def genuine (env : Env) : State → List (Nat × Input) → Bool
  | _, [] => true
  | s, (i, inp) :: rest => genuineAt s i inp && genuine env ((step env s i inp).getD s) rest

/-- The answer `inp` with its document passed through `NewDocument` on `filePath`. -/
def viaNewDocument (filePath : String) (inp : Input) : Input :=
  { inp with doc := NewDocument filePath inp.doc }

/-- No two separators in a row. -/
def NoDoubleSep (l : List Char) : Prop := List.Chain' (fun a b => ¬ (a = '/' ∧ b = '/')) l

/-- The output buffer of `filepath.Clean` between two iterations: no two separators
in a row, `dotdot` inside the buffer, and neither the buffer nor its part below
`dotdot` ends with a separator, the lone root `/` of a rooted path apart. -/
def Tidy (rooted : Bool) (dotdot : Nat) (out : List Char) : Prop :=
  NoDoubleSep out ∧ dotdot ≤ out.length ∧
  (out.getLast? = some '/' → out = ['/'] ∧ rooted = true) ∧
  ((out.take dotdot).getLast? = some '/' → out.take dotdot = ['/'] ∧ rooted = true)

/-- The shape of the process while no document is parsed: `main` alone, or `main`,
its call of `download` at the send of line 123 or returned, and the one task it
has started, which is at line 128, at the deferred receive or ended, on a file
path that `http.Get` does not request. -/
def Solo (s : State) : Prop :=
  ∃ m : Option Call,
    s.gs = [⟨none, m⟩] ∨
    ∃ t : Task, s.gs = [⟨none, m⟩, ⟨some t, none⟩] ∧ (∀ c, m = some c → c.pc = .send) ∧
      requestable t.filePath = false ∧ ∀ todo, t.loc ≠ .each todo

/-- A schedule of the crawl of `http://site/a`: `main` stores the page and starts the
task (six actions), the task calls `goquery.NewDocument` on `out/a`, `main` sends
on `sem`, and the task receives from it. -/
def storedPageSchedule : List (Nat × Input) :=
  List.replicate 6 (0, htmlPage) ++
    [(1, viaNewDocument "out/a" htmlPage), (0, htmlPage), (1, htmlPage)]

/-! ## The critical section of `download`, action by action

Lines 61-70 of `download` with the mutex explicit: each call locks `mutex`, reads
`visited[u.String()]`, and either unlocks and returns, or writes the entry,
unlocks and goes on to `http.Get`. -/

/-- An action on `mutex`, on the map `visited`, or the fetch. -/
inductive Act where
  /-- Line 61: `mutex.Lock()`. -/
  | lock
  /-- Line 62: the read of `visited[u.String()]`, with the value read. -/
  | check (found : Bool)
  /-- Line 66: `visited[u.String()] = true`. -/
  | set
  /-- Line 63 or 67: `mutex.Unlock()`. -/
  | unlock
  /-- Line 70: `http.Get(u.String())`. -/
  | get
  deriving DecidableEq, Repr

/-- The program points of lines 61-70. -/
inductive CsPc where
  /-- Line 61: `mutex.Lock()` not yet done. -/
  | lock
  /-- Line 62: the mutex is held, the entry not yet read. -/
  | check
  /-- Line 63: the entry was found; `mutex.Unlock()` not yet done. -/
  | unlockReturn
  /-- Line 64: the call has returned. -/
  | returned
  /-- Line 66: the entry was not found; the write not yet done. -/
  | set
  /-- Line 67: the entry is written; `mutex.Unlock()` not yet done. -/
  | unlock
  /-- Line 70: the mutex is released, `http.Get` not yet called. -/
  | get
  /-- The fetch is made. -/
  | fetched
  deriving DecidableEq, Repr

/-- A call of `download` within lines 61-70: the key `u.String()` and the
program point. -/
structure Caller where
  key : String
  pc : CsPc
  deriving DecidableEq, Repr

/-- The state of the calls within lines 61-70: whether `mutex` is locked, the map
`visited`, the calls, and the actions done so far, each with the number of its
call. -/
structure Section where
  mutex : Bool
  visited : String → Bool
  callers : List Caller
  log : List (Nat × Act)

/-- One action of a call within lines 61-70: the mutex, the map and the call after
it, and the action done. `none` when the call is blocked (`Lock` on a locked
mutex) or has nothing left to do. -/
def Caller.step (mutex : Bool) (visited : String → Bool) (c : Caller) :
    Option (Bool × (String → Bool) × Caller × Act) :=
  match c.pc with
  | .lock => if mutex then none else some (true, visited, { c with pc := .check }, .lock)
  | .check =>
    if visited c.key then some (mutex, visited, { c with pc := .unlockReturn }, .check true)
    else some (mutex, visited, { c with pc := .set }, .check false)
  | .unlockReturn => some (false, visited, { c with pc := .returned }, .unlock)
  | .returned => none
  | .set => some (mutex, Function.update visited c.key true, { c with pc := .unlock }, .set)
  | .unlock => some (false, visited, { c with pc := .get }, .unlock)
  | .get => some (mutex, visited, { c with pc := .fetched }, .get)
  | .fetched => none

/-- One step of the calls: call number `i` does its next action. -/
def Section.step (s : Section) (i : Nat) : Option Section :=
  match s.callers[i]? with
  | none => none
  | some c =>
    match c.step s.mutex s.visited with
    | none => none
    | some (mutex, visited, c', a) => some ⟨mutex, visited, s.callers.set i c', s.log ++ [(i, a)]⟩

/-- The calls run along a schedule; an entry whose call cannot step leaves the
state as it is. -/
def Section.run (s : Section) : List Nat → Section
  | [] => s
  | i :: rest => Section.run ((s.step i).getD s) rest

/-- The state in which calls of `download` on the given keys are about to lock
the mutex. -/
def Section.start (visited : String → Bool) (keys : List String) : Section :=
  ⟨false, visited, keys.map fun k => ⟨k, .lock⟩, []⟩

/-- The actions a call has done when it stands at a program point. -/
def CsPc.history : CsPc → List Act
  | .lock => []
  | .check => [.lock]
  | .unlockReturn => [.lock, .check true]
  | .returned => [.lock, .check true, .unlock]
  | .set => [.lock, .check false]
  | .unlock => [.lock, .check false, .set]
  | .get => [.lock, .check false, .set, .unlock]
  | .fetched => [.lock, .check false, .set, .unlock, .get]

/-- Whether a program point lies inside the critical section (the mutex is held). -/
def CsPc.inside : CsPc → Bool
  | .check | .unlockReturn | .set | .unlock => true
  | _ => false

/-- The holder of the mutex after one more action, given the holder before it;
`none` when the action is not allowed there: a lock needs a free mutex, a read, a
write or an unlock needs the mutex held by the same call, a fetch is free. -/
def holderAfter (holder : Option Nat) (e : Nat × Act) : Option (Option Nat) :=
  match e.2, holder with
  | .get, h => some h
  | .lock, none => some (some e.1)
  | .lock, some _ => none
  | .unlock, some i => if i = e.1 then some none else none
  | _, some i => if i = e.1 then some (some i) else none
  | _, none => none

/-- The holder of the mutex after a log that starts with the mutex free; `none`
when the log is not a sequence of critical sections, each by one call. -/
def holder (log : List (Nat × Act)) : Option (Option Nat) :=
  log.foldl (fun st e => st.bind fun h => holderAfter h e) (some none)

/-- The actions of call number `i` in a log, in order. -/
def actionsOf (i : Nat) (log : List (Nat × Act)) : List Act :=
  (log.filter fun e => e.1 == i).map Prod.snd

/-- The invariant of the calls within lines 61-70: every call has done exactly the
actions of its program point, and the log is a sequence of critical sections,
each by one call, whose last one is open exactly when the mutex is locked, by
the one call that stands inside. -/
def Sectioned (s : Section) : Prop :=
  (∀ i c, s.callers[i]? = some c → actionsOf i s.log = c.pc.history) ∧
  ∃ h, holder s.log = some h ∧ s.mutex = h.isSome ∧
    ∀ i c, s.callers[i]? = some c → (c.pc.inside = true ↔ h = some i)

end L2_10

namespace L2_3

/-!
# String unpacking (`cmd/L2.3/main.go`)

`UnpackString` on the sequence of runes that `range input` yields. The table
`unicode.IsDigit` is a parameter; what the library fixes for the Latin-1 range
(`'0' <= r && r <= '9'`) is the law `Latin1`.
-/

/-- What a call leaves: a returned value, a returned error, or a panic. -/
inductive Result (α : Type) where
  | ok (v : α)
  | error (msg : String)
  | panic (msg : String)
  deriving DecidableEq, Repr

/-- The law of `unicode.IsDigit` on the Latin-1 range: `'0' <= r && r <= '9'`. -/
def Latin1 (IsDigit : Char → Bool) : Prop :=
  ∀ c : Char, c.toNat ≤ 255 → IsDigit c = decide (48 ≤ c.toNat ∧ c.toNat ≤ 57)

/-- A digit table that has the ASCII digits only; it obeys `Latin1`. -/
def asciiDigit (c : Char) : Bool := decide (48 ≤ c.toNat ∧ c.toNat ≤ 57)

/-- The value `count` of `count, _ := strconv.Atoi(string(r))` (line 35): the value
of an ASCII digit; 0, with the error dropped, for every other rune. -/
def Atoi1 (r : Char) : Int :=
  if 48 ≤ r.toNat ∧ r.toNat ≤ 57 then (r.toNat : Int) - 48 else 0

/-- The call `strings.Repeat(string(r), count)`: it panics on a negative count. -/
def Repeat (r : Char) (count : Int) : Result (List Char) :=
  if count < 0 then .panic "strings: negative Repeat count"
  else .ok (List.replicate count.toNat r)

/-- The local variables of `UnpackString` (lines 16-18). -/
structure Vars where
  result : List Char
  escape : Bool
  prevChar : Bool
  prevRune : Char
  deriving DecidableEq, Repr

/-- The body of the loop of `UnpackString` for one rune (lines 21-46). -/
def body (IsDigit : Char → Bool) (st : Vars) (r : Char) : Result Vars :=
  if st.escape then
    .ok { result := st.result ++ [r], prevRune := r, prevChar := true, escape := false }
  else if r = '\\' then .ok { st with escape := true }
  else if IsDigit r then
    if st.prevChar then
      match Repeat st.prevRune (Atoi1 r - 1) with
      | .ok s => .ok { st with result := st.result ++ s, prevChar := false }
      | .error msg => .error msg
      | .panic msg => .panic msg
    else .error "invalid string format"
  else .ok { st with result := st.result ++ [r], prevRune := r, prevChar := true }

/-- The loop of `UnpackString` over the runes of the input (line 20). -/
def loop (IsDigit : Char → Bool) : Vars → List Char → Result Vars
  | st, [] => .ok st
  | st, r :: rest =>
    match body IsDigit st r with
    | .ok st' => loop IsDigit st' rest
    | .error msg => .error msg
    | .panic msg => .panic msg

/-- The function `UnpackString` (lines 11-54). -/
def UnpackString (IsDigit : Char → Bool) (input : String) : Result String :=
  if input = "" then .ok ""
  else
    match loop IsDigit ⟨[], false, false, Char.ofNat 0⟩ input.data with
    | .ok st => if st.escape then .error "invalid string format" else .ok ⟨st.result⟩
    | .error msg => .error msg
    | .panic msg => .panic msg

/-! ## The reference unpacking -/

/-- A unit of a packed string: a plain character, or a backslash followed by a
character taken literally, with the digit that follows it, if any. -/
structure PackUnit where
  escaped : Bool
  ch : Char
  count : Option Char
  deriving DecidableEq, Repr

/-- The text of a unit. -/
def PackUnit.text (u : PackUnit) : List Char :=
  (if u.escaped then ['\\'] else []) ++ [u.ch] ++ u.count.toList

/-- A unit of a packed string: a plain character is neither a digit nor a
backslash, and what follows the character, if anything, is a digit. -/
def PackUnit.Valid (IsDigit : Char → Bool) (u : PackUnit) : Prop :=
  (u.escaped = false → IsDigit u.ch = false ∧ u.ch ≠ '\\') ∧
  ∀ d, u.count = some d → IsDigit d = true

/-- A unit whose count, if any, is one of the decimal digits `1` to `9`. -/
def PackUnit.WellFormed (IsDigit : Char → Bool) (u : PackUnit) : Prop :=
  (u.escaped = false → IsDigit u.ch = false ∧ u.ch ≠ '\\') ∧
  ∀ d, u.count = some d → 49 ≤ d.toNat ∧ d.toNat ≤ 57

/-- The number of times the character of a unit is to be written: the value of
its count digit, once when there is none. -/
def PackUnit.times (u : PackUnit) : Nat :=
  match u.count with
  | some d => d.toNat - 48
  | none => 1

/-- The string made of units. -/
def pack (us : List PackUnit) : String := ⟨us.flatMap PackUnit.text⟩

/-- The reference unpacking: each unit's character repeated as often as its count
says. -/
def unpackRef (us : List PackUnit) : String := ⟨us.flatMap fun u => List.replicate u.times u.ch⟩

/-- A malformed input: it is not made of units. It has an unescaped digit that
does not follow a unit character, or it ends with an unpaired backslash. -/
def Malformed (IsDigit : Char → Bool) (input : String) : Prop :=
  ¬ ∃ us : List PackUnit, (∀ u ∈ us, u.Valid IsDigit) ∧ input = pack us

/-- What is left to read of an input made of units, for the flags `escape` and
`prevChar` of the loop: after a backslash, a character, its optional digit and
units; otherwise units, behind a digit when `prevChar` allows one. -/
def Tail (IsDigit : Char → Bool) (escape prevChar : Bool) (input : List Char) : Prop :=
  ∃ us : List PackUnit, (∀ u ∈ us, u.Valid IsDigit) ∧
    if escape then
      ∃ (c : Char) (cnt : Option Char), (∀ d, cnt = some d → IsDigit d = true) ∧
        input = c :: cnt.toList ++ us.flatMap PackUnit.text
    else
      input = us.flatMap PackUnit.text ∨
        (prevChar = true ∧ ∃ d, IsDigit d = true ∧ input = d :: us.flatMap PackUnit.text)

end L2_3

namespace L2_5

/-!
# Anagram sets (`cmd/L2.5/main.go`)

Go maps are association lists here, in the order in which keys are first
inserted; the result of `findAnagramSets` does not depend on the order in which
Go ranges over `anagramMap`, the keys it writes being pairwise different.
-/

/-- The function `toLower` (lines 39-41): it returns its argument. -/
def toLower (s : String) : String := s

/-- The function `sortLetters` (lines 44-50): the runes of the string in
increasing order. -/
def sortLetters (s : String) : String := ⟨s.data.insertionSort fun a b => a ≤ b⟩

/-- The statement `anagramMap[key] = append(anagramMap[key], word)` (line 19). -/
def appendTo (anagramMap : List (String × List String)) (key word : String) :
    List (String × List String) :=
  match anagramMap with
  | [] => [(key, [word])]
  | (k, group) :: rest =>
    if k = key then (k, group ++ [word]) :: rest else (k, group) :: appendTo rest key word

/-- The first loop of `findAnagramSets` (lines 16-20). -/
def groupWords (anagramMap : List (String × List String)) :
    List String → List (String × List String)
  | [] => anagramMap
  | word :: words => groupWords (appendTo anagramMap (sortLetters (toLower word)) word) words

/-- The call `sort.Strings(group)` (line 29): the strings in increasing order (of
their bytes, which is the order of their runes). -/
def sortStrings (group : List String) : List String :=
  group.insertionSort fun a b => decide (a.data ≤ b.data)

/-- The body of the second loop of `findAnagramSets` for one group (lines 25-32):
the entry written to `result`, if any. -/
def entry (group : List String) : Option (String × List String) :=
  if group.length < 2 then none
  else
    match sortStrings group with
    | [] => none
    | key :: rest => some (key, key :: rest)

/-- The function `findAnagramSets` (lines 11-36). -/
def findAnagramSets (words : List String) : List (String × List String) :=
  (groupWords [] words).filterMap fun kg => entry kg.2

/-- The words of `main` (line 54). -/
def mainWords : List String :=
  ["Пятак", "пятка", "тяпка", "листок", "слиток", "столик", "uniq"]

end L2_5

namespace L2_7

/-!
# Field selection (`cmd/L2.7/main.go`)

`parseFields` and the body of the line loop of `main`. Go's `int` is the 64-bit
integer; `strings.Split`, `strings.Contains` and `strconv.Atoi` are modelled
after the Go library.
-/

/-- The value of a 64-bit `int` computation: the integer wrapped into the range
of `int64`. -/
def wrap (x : Int) : Int := (x + 2 ^ 63) % 2 ^ 64 - 2 ^ 63

/-- Whether a character is one of the ASCII digits. -/
def isDigit (c : Char) : Bool := decide (48 ≤ c.toNat ∧ c.toNat ≤ 57)

/-- The number written by a list of ASCII digits. -/
def digitsValue (ds : List Char) : Nat :=
  ds.foldl (fun n c => 10 * n + (c.toNat - 48)) 0

/-- The value `n` of `n, _ := strconv.Atoi(s)`, the error dropped: an optional sign
and decimal digits give their number, clamped to the range of `int64` when it is
out of range; everything else (the empty string, a sign alone, any other
character) is a syntax error and gives 0. -/
def Atoi (s : String) : Int :=
  let neg := s.data.head? == some '-'
  let ds := if s.data.head? == some '-' ∨ s.data.head? == some '+' then s.data.tail else s.data
  if ds.isEmpty || !ds.all isDigit then 0
  else if neg then
    if digitsValue ds > 2 ^ 63 then -(2 ^ 63) else -(digitsValue ds : Int)
  else
    if digitsValue ds ≥ 2 ^ 63 then 2 ^ 63 - 1 else (digitsValue ds : Int)

/-- The scan of `strings.Split` for a separator that is not empty: `cur` is the
piece being read. One unit of fuel per character. -/
def splitAux (sep : List Char) : Nat → List Char → List Char → List (List Char)
  | 0, cur, _ => [cur]
  | _ + 1, cur, [] => [cur]
  | fuel + 1, cur, c :: rest =>
    if sep.isPrefixOf (c :: rest) then
      cur :: splitAux sep fuel [] ((c :: rest).drop sep.length)
    else splitAux sep fuel (cur ++ [c]) rest

/-- The function `strings.Split`: the pieces of `s` between the occurrences of
`sep`; with an empty `sep`, the runes of `s` one by one. -/
def Split (s sep : String) : List String :=
  if sep = "" then s.data.map String.singleton
  else (splitAux sep.data (s.data.length + 1) [] s.data).map String.mk

/-- The function `strings.Contains`. -/
def Contains (s substr : String) : Bool := decide (substr.data <:+: s.data)

/-- The loop `for i := start; i <= end; i++ { fields = append(fields, i) }` (lines
63-65), one unit of fuel per test of `i <= end`; `none` when the fuel runs out. -/
def rangeLoop : Nat → Int → Int → List Int → Option (List Int)
  | 0, _, _, _ => none
  | fuel + 1, i, stop, fields =>
    if i ≤ stop then rangeLoop fuel (wrap (i + 1)) stop (fields ++ [i]) else some fields

/-- The body of the loop of `parseFields` for one part (lines 56-69): the fields
after it. The fuel of the range loop is the number of tests a loop from `start`
to `end` makes; `none` when the range loop does not end (its upper end is the
greatest `int`, so `i <= end` holds for ever). -/
def parsePart (fields : List Int) (part : String) : Option (List Int) :=
  if Contains part "-" then
    match Split part "-" with
    | [a, b] => rangeLoop ((Atoi b - Atoi a + 1).toNat + 1) (Atoi a) (Atoi b) fields
    | _ => some fields
  else some (fields ++ [Atoi part])

/-- The function `parseFields` (lines 52-72); `none` when it does not return. -/
def parseFields (fieldsStr : String) : Option (List Int) :=
  (Split fieldsStr ",").foldl (fun acc part => acc.bind fun fields => parsePart fields part)
    (some [])

/-- What the line loop of `main` does with one line. -/
inductive Line where
  /-- The line is skipped (line 33). -/
  | skipped
  /-- The output is printed (line 42). -/
  | printed (output : String)
  /-- The program panics: index out of range. -/
  | panic (index : Int)
  deriving DecidableEq, Repr

/-- The loop over the fields (lines 37-41): the output, or the index at which
`parts[field-1]` is out of range. -/
def selectFields (parts : List String) : List Int → List String → Except Int (List String)
  | [], output => .ok output
  | field :: fields, output =>
    if wrap (field - 1) < parts.length then
      match (if 0 ≤ wrap (field - 1) then parts[(wrap (field - 1)).toNat]? else none) with
      | some part => selectFields parts fields (output ++ [part])
      | none => .error (wrap (field - 1))
    else selectFields parts fields output

/-- The body of the line loop of `main` (lines 31-42). -/
def cutLine (fields : List Int) (delimiter : String) (onlySeparated : Bool) (line : String) :
    Line :=
  if onlySeparated && !Contains line delimiter then .skipped
  else
    match selectFields (Split line delimiter) fields [] with
    | .ok output => .printed (String.join output)
    | .error index => .panic index

end L2_7

namespace L2_10

/-! ## The process: steps and invariants -/

theorem step_inv {env : Env} {s s' : State} {i : Nat} {inp : Input}
    (h : step env s i inp = some s') :
    ∃ g o l1 l2, s.gs = l1 ++ g :: l2 ∧ l1.length = i ∧ g.step env inp s.sh = some o ∧
      s' = ⟨o.sh, l1 ++ o.next :: l2 ++ o.spawned.toList⟩ := by
  unfold step at h
  cases hg : s.gs[i]? with
  | none => simp [hg] at h
  | some g =>
    simp only [hg] at h
    cases ho : g.step env inp s.sh with
    | none => simp [ho] at h
    | some o =>
      simp only [ho, Option.some.injEq] at h
      obtain ⟨hi, hg⟩ := List.getElem?_eq_some.mp hg
      refine ⟨g, o, s.gs.take i, s.gs.drop (i + 1), ?_, ?_, ho, ?_⟩
      · rw [← hg]
        simp
      · simp [Nat.le_of_lt hi]
      · rw [← h, List.set_eq_take_append_cons_drop]
        simp [hi]

theorem run_invariant {env : Env} (P : State → Prop)
    (hstep : ∀ s i inp s', P s → step env s i inp = some s' → P s')
    (s : State) (sched : List (Nat × Input)) (h0 : P s) : P (run env s sched) := by
  induction sched generalizing s with
  | nil => exact h0
  | cons a rest ih =>
    obtain ⟨i, inp⟩ := a
    simp only [run]
    apply ih
    cases hs : step env s i inp with
    | none => simpa using h0
    | some s' => simpa using hstep s i inp s' h0 hs


theorem gstep_cases {env : Env} {inp : Input} {sh : Shared} {g : Goroutine} {o : Outcome Goroutine}
    (h : g.step env inp sh = some o) :
    (∃ c o', g.call = some c ∧ download env inp sh c = some o' ∧
        o = ⟨o'.sh, { g with call := o'.next }, o'.spawned⟩) ∨
    (∃ t o', g.call = none ∧ g.task = some t ∧ parseHTML env inp sh t = some o' ∧
        o = ⟨o'.sh, ⟨some o'.next.1, o'.next.2⟩, o'.spawned⟩) := by
  unfold Goroutine.step at h
  cases hc : g.call with
  | some c =>
    simp only [hc] at h
    cases hd : download env inp sh c with
    | none => simp [hd] at h
    | some o' =>
      simp only [hd, Option.some.injEq] at h
      exact Or.inl ⟨c, o', rfl, hd, h.symm⟩
  | none =>
    simp only [hc] at h
    cases ht : g.task with
    | none => simp [ht] at h
    | some t =>
      simp only [ht] at h
      cases hp : parseHTML env inp sh t with
      | none => simp [hp] at h
      | some o' =>
        simp only [hp, Option.some.injEq] at h
        exact Or.inr ⟨t, o', rfl, rfl, hp, h.symm⟩

theorem target_host {env : Env} {u absURL : URL} {s : Element}
    (h : target env u s = some absURL) : absURL.Host = u.Host := by
  unfold target at h
  repeat' split at h
  all_goals
    first
    | contradiction
    | (simp only [Option.some.injEq] at h
       subst h
       rename_i hh
       simpa using hh)

/-- What a step of `download` keeps: the continuing call has the same arguments, a
started goroutine is a `parseHTML` task on the same URL and depth, and the only
`call` event added is the one of this call. -/
theorem download_frame {env : Env} {inp : Input} {sh : Shared} {c : Call}
    {o : Outcome (Option Call)} (h : download env inp sh c = some o) :
    (∀ c', o.next = some c' → c'.u = c.u ∧ c'.baseDir = c.baseDir ∧ c'.depth = c.depth) ∧
    (∀ g', o.spawned = some g' → g'.call = none ∧
      g'.task = some ⟨c.u, c.baseDir, c.depth, filePath c.baseDir c.u, .newDocument⟩) ∧
    (∀ u d, Event.call u d ∈ o.sh.trace → Event.call u d ∈ sh.trace ∨ (u = c.u ∧ d = c.depth)) := by
  unfold download at h
  simp only [Shared.log] at h
  repeat' split at h
  all_goals
    first
    | contradiction
    | (simp only [Option.some.injEq] at h
       subst h
       simp
       try tauto)

/-- What a step of `parseHTML` keeps: the task has the same arguments, a call made
is on a URL of the same host at the next depth, nothing is started, and no `call`
event is added. -/
theorem parseHTML_frame {env : Env} {inp : Input} {sh : Shared} {t : Task}
    {o : Outcome (Task × Option Call)} (h : parseHTML env inp sh t = some o) :
    (o.next.1.u = t.u ∧ o.next.1.baseDir = t.baseDir ∧ o.next.1.depth = t.depth ∧
      o.next.1.filePath = t.filePath) ∧
    (∀ c, o.next.2 = some c → c.u.Host = t.u.Host ∧ c.baseDir = t.baseDir ∧
      c.depth = incr t.depth ∧ c.pc = .enter) ∧
    o.spawned = none ∧
    (∀ u d, Event.call u d ∈ o.sh.trace → Event.call u d ∈ sh.trace) := by
  unfold parseHTML at h
  simp only [Shared.log] at h
  repeat' split at h
  all_goals
    first
    | contradiction
    | (simp only [Option.some.injEq] at h
       subst h
       simp
       try (rename_i htgt; exact target_host htgt))

theorem step_sameHost {env : Env} (h : String) (s : State) (i : Nat) (inp : Input)
    (s' : State) (hs : SameHost h s) (hstep : step env s i inp = some s') : SameHost h s' := by
  obtain ⟨g, o, l1, l2, hgs, -, hg, rfl⟩ := step_inv hstep
  obtain ⟨hall, htr⟩ := hs
  obtain ⟨hcall, htask⟩ := hall g (by simp [hgs])
  have key : o.next.onHost h ∧ (∀ g', o.spawned = some g' → g'.onHost h) ∧
      (∀ u d, Event.call u d ∈ o.sh.trace → u.Host = h) := by
    rcases gstep_cases hg with ⟨c, o', hc, hd, rfl⟩ | ⟨t, o', hc, ht, hp, rfl⟩
    · obtain ⟨f1, f2, f3⟩ := download_frame hd
      have hcu := hcall c hc
      refine ⟨⟨fun c' hc' => ?_, htask⟩, fun g' hg' => ⟨fun c' hc' => ?_, fun t' ht' => ?_⟩,
        fun u d hud => ?_⟩
      · rw [(f1 c' hc').1]; exact hcu
      · rw [(f2 g' hg').1] at hc'; cases hc'
      · rw [(f2 g' hg').2] at ht'
        cases ht'
        exact hcu
      · rcases f3 u d hud with hud | ⟨rfl, -⟩
        · exact htr u d hud
        · exact hcu
    · obtain ⟨f1, f2, f3, f4⟩ := parseHTML_frame hp
      have htu := htask t ht
      refine ⟨⟨fun c' hc' => ?_, fun t' ht' => ?_⟩, fun g' hg' => ?_, fun u d hud => ?_⟩
      · rw [(f2 c' hc').1]; exact htu
      · cases ht'
        rw [f1.1]; exact htu
      · simp [f3] at hg'
      · exact htr u d (f4 u d hud)
  obtain ⟨k1, k2, k3⟩ := key
  refine ⟨?_, k3⟩
  intro g' hg'
  simp only [List.mem_append, List.mem_cons, Option.mem_toList, Option.mem_def] at hg'
  rcases hg' with (hg' | rfl | hg') | hg'
  · exact hall g' (by simp [hgs, hg'])
  · exact k1
  · exact hall g' (by simp [hgs, hg'])
  · exact k2 g' hg'

/-- Claim C4 (single-host traversal). The `Each` callback of `parseHTML` for source
URL `u` calls `download` only on URLs whose `Host` equals `u.Host`; and in a crawl
started from a seed, along every schedule and for all answers of the outside
world, every URL on which `download` has been entered, is being executed or is
about to be entered, and every URL a `parseHTML` task runs for, has the `Host` of
the seed. -/
theorem single_host_traversal (env : Env) :
    (∀ u s absURL, target env u s = some absURL → absURL.Host = u.Host) ∧
    (∀ inp sh t o c, parseHTML env inp sh t = some o → o.next.2 = some c →
      c.u.Host = t.u.Host) ∧
    (∀ seed outputDir sched,
      (∀ u d, Event.call u d ∈ (run env (start seed outputDir) sched).sh.trace →
        u.Host = seed.Host) ∧
      (∀ g ∈ (run env (start seed outputDir) sched).gs,
        (∀ c, g.call = some c → c.u.Host = seed.Host) ∧
        (∀ t, g.task = some t → t.u.Host = seed.Host))) := by
  refine ⟨fun u s absURL h => target_host h,
    fun inp sh t o c h hc => ((parseHTML_frame h).2.1 c hc).1, fun seed outputDir sched => ?_⟩
  have h : SameHost seed.Host (run env (start seed outputDir) sched) :=
    run_invariant (SameHost seed.Host)
      (fun s1 i inp s2 => step_sameHost seed.Host s1 i inp s2) (start seed outputDir) sched
      (by simp [SameHost, start, Goroutine.onHost])
  exact ⟨h.2, h.1⟩


/-! ## At-most-once fetch -/

theorem fetched_append (env : Env) (tr : List Event) (e : Event) :
    fetched env (tr ++ [e]) = fetched env tr ++
      (match e with
       | .get u _ => [env.urlString u]
       | _ => []) := by
  unfold fetched
  rw [List.filterMap_append]
  cases e <;> simp [List.filterMap_cons]

/-- What one action of a goroutine does to the data of `Once`: nothing, a claim
of a key not yet marked, or the fetch of the key it had claimed. -/
theorem gstep_once {env : Env} {inp : Input} {sh : Shared} {g : Goroutine}
    {o : Outcome Goroutine} (h : g.step env inp sh = some o) :
    (∀ g', o.spawned = some g' → pendKey env g' = none) ∧
    ((fetched env o.sh.trace = fetched env sh.trace ∧ pendKey env o.next = pendKey env g ∧
        o.sh.visited = sh.visited) ∨
     (∃ k, fetched env o.sh.trace = fetched env sh.trace ∧ pendKey env g = none ∧
        pendKey env o.next = some k ∧ sh.visited k = false ∧
        o.sh.visited = Function.update sh.visited k true) ∨
     (∃ k, fetched env o.sh.trace = fetched env sh.trace ++ [k] ∧ pendKey env g = some k ∧
        pendKey env o.next = none ∧ o.sh.visited = sh.visited)) := by
  rcases gstep_cases h with ⟨c, o', hc, hd, rfl⟩ | ⟨t, o', hc, -, hp, rfl⟩
  · unfold download at hd
    split at hd
    · -- enter
      rename_i hpc
      simp only [Shared.log] at hd
      split at hd
      · simp only [Option.some.injEq] at hd
        subst hd
        simp [pendKey, hc, hpc, fetched_append]
      · unfold claim at hd
        by_cases hv : sh.visited (env.urlString c.u) = true
        · simp only [hv, if_true, Option.some.injEq] at hd
          subst hd
          simp [pendKey, hc, hpc, fetched_append]
        · simp only [hv, Bool.false_eq_true, if_false, Option.some.injEq] at hd
          subst hd
          refine ⟨by simp, Or.inr (Or.inl ⟨env.urlString c.u, ?_⟩)⟩
          simp [pendKey, hc, hpc, fetched_append]
          simpa using hv
    · -- get
      rename_i hpc
      simp only [Shared.log] at hd
      refine ⟨?_, Or.inr (Or.inr ⟨env.urlString c.u, ?_⟩)⟩
      · repeat' split at hd
        all_goals
          simp only [Option.some.injEq] at hd
          subst hd
          simp
      · repeat' split at hd
        all_goals
          simp only [Option.some.injEq] at hd
          subst hd
          simp [pendKey, hc, hpc, fetched_append]
    all_goals
      rename_i hpc
      simp only [Shared.log] at hd
      repeat' split at hd
      all_goals
        first
        | contradiction
        | (simp only [Option.some.injEq] at hd
           subst hd
           simp [pendKey, hc, hpc, fetched_append])
  · unfold parseHTML at hp
    simp only [Shared.log] at hp
    repeat' split at hp
    all_goals
      first
      | contradiction
      | (simp only [Option.some.injEq] at hp
         subst hp
         simp [pendKey, hc, fetched_append])

theorem step_once {env : Env} (visited0 : String → Bool) (s : State) (i : Nat) (inp : Input)
    (s' : State) (hs : Once env visited0 s) (h : step env s i inp = some s') :
    Once env visited0 s' := by
  obtain ⟨g, o, l1, l2, hgs, -, hstep, rfl⟩ := step_inv h
  obtain ⟨hnd, hvis, hmono⟩ := hs
  obtain ⟨hsp, hcase⟩ := gstep_once hstep
  have hspawn : o.spawned.toList.filterMap (pendKey env) = [] := by
    cases hsp' : o.spawned with
    | none => simp
    | some g' => simp [hsp g' hsp']
  simp only [hgs, List.filterMap_append, List.filterMap_cons] at hnd hvis
  simp only [Once, List.filterMap_append, List.filterMap_cons, hspawn, List.append_nil]
  rcases hcase with ⟨hf, hp, hv⟩ | ⟨k, hf, hp, hp', hk, hv⟩ | ⟨k, hf, hp, hp', hv⟩
  · rw [hf, hp, hv]
    exact ⟨hnd, hvis, hmono⟩
  · rw [hf, hp', hv]
    rw [hp] at hnd hvis
    have hperm : (fetched env s.sh.trace ++ (List.filterMap (pendKey env) l1 ++
        k :: List.filterMap (pendKey env) l2)).Perm
        (k :: (fetched env s.sh.trace ++ (List.filterMap (pendKey env) l1 ++
          List.filterMap (pendKey env) l2))) :=
      (List.Perm.append_left _ List.perm_middle).trans List.perm_middle
    have hk0 : visited0 k = false := by
      by_contra hc
      have := hmono k (by simpa using hc)
      simp [hk] at this
    refine ⟨hperm.nodup_iff.mpr (List.nodup_cons.mpr ⟨?_, hnd⟩), ?_, ?_⟩
    · intro hmem
      have := (hvis k hmem).1
      simp [hk] at this
    · intro k' hk'
      rcases List.mem_cons.mp (hperm.mem_iff.mp hk') with rfl | hk'
      · exact ⟨by simp, hk0⟩
      · refine ⟨?_, (hvis k' hk').2⟩
        by_cases hkk : k' = k
        · rw [hkk, Function.update_same]
        · rw [Function.update_noteq hkk]
          exact (hvis k' hk').1
    · intro k' hk'
      by_cases hkk : k' = k
      · rw [hkk, Function.update_same]
      · rw [Function.update_noteq hkk]
        exact hmono k' hk'
  · rw [hf, hp', hv]
    rw [hp] at hnd hvis
    have hperm : ((fetched env s.sh.trace ++ [k]) ++ (List.filterMap (pendKey env) l1 ++
        List.filterMap (pendKey env) l2)).Perm
        (fetched env s.sh.trace ++ (List.filterMap (pendKey env) l1 ++
          k :: List.filterMap (pendKey env) l2)) := by
      rw [List.append_assoc, List.singleton_append]
      exact List.Perm.append_left _ List.perm_middle.symm
    exact ⟨hperm.nodup_iff.mpr hnd, fun k' hk' => hvis k' (hperm.mem_iff.mp hk'), hmono⟩

theorem fresh_once (env : Env) (s : State) (hs : Fresh s) : Once env s.sh.visited s := by
  obtain ⟨htr, hcalls⟩ := hs
  have hp : s.gs.filterMap (pendKey env) = [] := by
    rw [List.filterMap_eq_nil_iff]
    intro g hg
    unfold pendKey
    cases hc : g.call with
    | none => rfl
    | some c => simp [hcalls g hg c hc]
  simp [Once, htr, hp, fetched]

theorem start_fresh (u : URL) (outputDir : String) : Fresh (start u outputDir) := by
  simp [Fresh, start]

/-- Claim C1 (at-most-once fetch). From every state in which no fetch has been made
or prepared (any initial `visited` map, any number of goroutines each about to
call `download` or run `parseHTML`), along every schedule and for all answers of
the outside world, the URL strings `http.Get` was called with are pairwise
distinct, each of them is marked in `visited`, and none of them was marked in the
initial map. -/
theorem at_most_once_fetch (env : Env) (s : State) (sched : List (Nat × Input))
    (hs : Fresh s) :
    (fetched env (run env s sched).sh.trace).Nodup ∧
    ∀ k ∈ fetched env (run env s sched).sh.trace,
      (run env s sched).sh.visited k = true ∧ s.sh.visited k = false := by
  have h := run_invariant (Once env s.sh.visited)
    (fun s1 i inp s2 => step_once s.sh.visited s1 i inp s2) s sched (fresh_once env s hs)
  exact ⟨(List.nodup_append.mp h.1).1, fun k hk => h.2.1 k (List.mem_append_left _ hk)⟩


/-- Witness of C1: two goroutines call `download` on `http://site/a` at the same
time; both enter, then both try to go on; `http.Get` is called once. -/
theorem at_most_once_fetch_witness :
    Fresh twoCallers ∧
    fetched (siteEnv 0) (run (siteEnv 0) twoCallers
      [(0, htmlPage), (1, htmlPage), (0, htmlPage), (1, htmlPage)]).sh.trace = ["http://site/a"] ∧
    (fetched (siteEnv 0) (run (siteEnv 0) twoCallers
      [(0, htmlPage), (1, htmlPage), (0, htmlPage), (1, htmlPage)]).sh.trace).Nodup :=
  ⟨by simp [Fresh, twoCallers], by decide,
    (at_most_once_fetch (siteEnv 0) twoCallers _ (by simp [Fresh, twoCallers])).1⟩


/-! ## The depth gate -/

theorem download_withinDepth {env : Env} {inp : Input} {sh : Shared} {c : Call}
    {o : Outcome (Option Call)} (hN : env.recursionDepth > 0)
    (h : download env inp sh c = some o)
    (hc : c.pc ≠ .enter → c.depth ≤ env.recursionDepth)
    (htr : ∀ u d, Event.get u d ∈ sh.trace → d ≤ env.recursionDepth) :
    (∀ c', o.next = some c' → c'.pc ≠ .enter → c'.depth ≤ env.recursionDepth) ∧
    (∀ g', o.spawned = some g' → g'.call = none) ∧
    (∀ u d, Event.get u d ∈ o.sh.trace → d ≤ env.recursionDepth) := by
  unfold download at h
  split at h
  · -- enter
    simp only [Shared.log] at h
    split at h
    · simp only [Option.some.injEq] at h
      subst h
      simpa using htr
    · rename_i hgate
      simp only [depthGate, hN, decide_True, Bool.true_and, decide_eq_true_eq] at hgate
      split at h <;> simp only [Option.some.injEq] at h <;> subst h <;> simp
      · simpa using htr
      · exact ⟨not_lt.mp hgate, by simpa using htr⟩
  all_goals
    rename_i hpc
    simp only [hpc, ne_eq, not_false_eq_true, reduceCtorEq, forall_const] at hc
    simp only [Shared.log] at h
    repeat' split at h
    all_goals
      first
      | contradiction
      | (simp only [Option.some.injEq] at h
         subst h
         simp
         try (intro u d hud; rcases hud with hud | hud
              · exact htr u d hud
              · obtain ⟨rfl, rfl⟩ := hud
                exact hc)
         try (refine ⟨hc, ?_⟩)
         try (intro u d hud; rcases hud with hud | hud
              · exact htr u d hud
              · obtain ⟨rfl, rfl⟩ := hud
                exact hc)
         try exact htr)

theorem parseHTML_withinDepth {env : Env} {inp : Input} {sh : Shared} {t : Task}
    {o : Outcome (Task × Option Call)} (h : parseHTML env inp sh t = some o)
    (htr : ∀ u d, Event.get u d ∈ sh.trace → d ≤ env.recursionDepth) :
    (∀ c', o.next.2 = some c' → c'.pc = .enter) ∧ o.spawned = none ∧
    (∀ u d, Event.get u d ∈ o.sh.trace → d ≤ env.recursionDepth) := by
  unfold parseHTML at h
  simp only [Shared.log] at h
  repeat' split at h
  all_goals
    first
    | contradiction
    | (simp only [Option.some.injEq] at h
       subst h
       simp
       try exact htr)

theorem step_withinDepth {env : Env} (hN : env.recursionDepth > 0) (s : State) (i : Nat)
    (inp : Input) (s' : State) (hs : WithinDepth env.recursionDepth s)
    (h : step env s i inp = some s') : WithinDepth env.recursionDepth s' := by
  obtain ⟨g, o, l1, l2, hgs, -, hstep, rfl⟩ := step_inv h
  obtain ⟨hcalls, htr⟩ := hs
  have hg : ∀ c, g.call = some c → c.pc ≠ .enter → c.depth ≤ env.recursionDepth :=
    hcalls g (by simp [hgs])
  have key : (∀ c, o.next.call = some c → c.pc ≠ .enter → c.depth ≤ env.recursionDepth) ∧
      (∀ g', o.spawned = some g' → g'.call = none) ∧
      (∀ u d, Event.get u d ∈ o.sh.trace → d ≤ env.recursionDepth) := by
    rcases gstep_cases hstep with ⟨c, o', hc, hd, rfl⟩ | ⟨t, o', -, -, hp, rfl⟩
    · exact download_withinDepth hN hd (hg c hc) htr
    · obtain ⟨h1, h2, h3⟩ := parseHTML_withinDepth hp htr
      refine ⟨fun c hc hpc => absurd (h1 c hc) hpc, ?_, h3⟩
      simp [h2]
  obtain ⟨k1, k2, k3⟩ := key
  refine ⟨?_, k3⟩
  intro g' hg' c hc hpc
  simp only [List.mem_append, List.mem_cons, Option.mem_toList, Option.mem_def] at hg'
  rcases hg' with (hg' | rfl | hg') | hg'
  · exact hcalls g' (by simp [hgs, hg']) c hc hpc
  · exact k1 c hc hpc
  · exact hcalls g' (by simp [hgs, hg']) c hc hpc
  · simp [k2 g' hg'] at hc


/-! ## The claim step -/

/-- Claim C2 (the claim step behaves as `tryClaim`). The critical section of
`download` refines the specification's `tryClaim` (on the map that marks exactly
the claimed URLs). For every key `u` and map `V`: if `u` is not marked the step
proceeds and leaves `V` with `u` marked and every other entry unchanged; if `u`
is marked the step skips and leaves `V` unchanged. A second claim of the same
key right after the first never proceeds, so two successive claims of a key not
yet marked yield exactly one true and one false. The same holds of the step of
`download` at its entry when the depth gate lets the call pass. -/
theorem claim_is_tryClaim :
    (∀ claimed url,
      claim (marks claimed) url = ((tryClaim claimed url).1, marks (tryClaim claimed url).2)) ∧
    (∀ V u, V u = false →
      (claim V u).1 = true ∧ (claim V u).2 u = true ∧ ∀ k, k ≠ u → (claim V u).2 k = V k) ∧
    (∀ V u, V u = true → (claim V u).1 = false ∧ (claim V u).2 = V) ∧
    (∀ V u, (claim (claim V u).2 u).1 = false ∧ ((claim V u).1 = true ↔ V u = false)) ∧
    (∀ env inp sh c, c.pc = .enter → depthGate env.recursionDepth c.depth = false →
      (sh.visited (env.urlString c.u) = false →
        download env inp sh c =
          some ⟨{ sh.log (.call c.u c.depth) with
                    visited := Function.update sh.visited (env.urlString c.u) true },
                some { c with pc := .get }, none⟩) ∧
      (sh.visited (env.urlString c.u) = true →
        download env inp sh c = some ⟨sh.log (.call c.u c.depth), none, none⟩)) := by
  refine ⟨?_, ?_, ?_, ?_, ?_⟩
  · intro claimed url
    by_cases h : url ∈ claimed
    · simp [claim, tryClaim, marks, h]
    · simp only [claim, tryClaim, marks, h, decide_False, Bool.false_eq_true, if_false,
        Prod.mk.injEq, true_and]
      funext k
      by_cases hk : k = url
      · subst hk
        simp [marks]
      · simp [Function.update_noteq hk, hk, marks]
  · intro V u h
    refine ⟨by simp [claim, h], by simp [claim, h], fun k hk => ?_⟩
    simp [claim, h, Function.update_noteq hk]
  · intro V u h
    simp [claim, h]
  · intro V u
    by_cases h : V u = true
    · simp [claim, h]
    · simp [claim, h]
  · intro env inp sh c hpc hgate
    constructor
    · intro hv
      simp [download, hpc, hgate, claim, hv, Shared.log]
    · intro hv
      simp [download, hpc, hgate, claim, hv, Shared.log]

/-! ## The depth gate: statements -/

/-- Claim C3 (depth gate). With a maximum depth `N > 0` configured, a call
`download(u, baseDir, d)` with `d > N` returns in its first action: the map
`visited`, the files and `sem` are unchanged, nothing is fetched (the only event
recorded is the entry of the call) and no goroutine is started, so no link is
scheduled. Hence in every run from a state in which no fetch has been made or
prepared, every fetch is made at a depth of at most `N`: with `N = 1` a target at
depth 2 is never fetched. -/
theorem depth_gate (env : Env) (hN : env.recursionDepth > 0) :
    (∀ inp sh c, c.pc = .enter → c.depth > env.recursionDepth →
      ∃ o, download env inp sh c = some o ∧ o.next = none ∧ o.spawned = none ∧
        o.sh.visited = sh.visited ∧ o.sh.files = sh.files ∧ o.sh.sem = sh.sem ∧
        o.sh.trace = sh.trace ++ [.call c.u c.depth]) ∧
    (∀ s sched, Fresh s →
      ∀ u d, Event.get u d ∈ (run env s sched).sh.trace → d ≤ env.recursionDepth) := by
  constructor
  · intro inp sh c hpc hd
    have hgate : depthGate env.recursionDepth c.depth = true := by
      simp [depthGate, hN, hd]
    refine ⟨⟨sh.log (.call c.u c.depth), none, none⟩, ?_, rfl, rfl, rfl, rfl, rfl, rfl⟩
    simp only [download, hpc, hgate, if_true]
  · intro s sched hs
    have h : WithinDepth env.recursionDepth (run env s sched) :=
      run_invariant (WithinDepth env.recursionDepth)
        (fun s1 i inp s2 => step_withinDepth hN s1 i inp s2) s sched
        ⟨fun g hg c hc hpc => absurd (hs.2 g hg c hc) hpc, by simp [hs.1]⟩
    exact h.2

/-- Witness of C3: the small site crawled with `-depth 1`. The page `/a` (depth 0)
links to `/b` (depth 1), which links to `/b` again; the call at depth 2 is made
and dropped, and the fetches recorded are those of depths 0 and 1. -/
theorem depth_gate_witness :
    (siteEnv 1).recursionDepth > 0 ∧ Fresh (start siteA "out") ∧
    (∃ o, download (siteEnv 1) htmlPage ⟨fun _ => false, 0, fun _ => none, []⟩
        ⟨siteB, "out", 2, .enter⟩ = some o ∧ o.next = none ∧ o.spawned = none ∧
        o.sh.visited = (fun _ => false) ∧ o.sh.files = (fun _ => none) ∧ o.sh.sem = 0 ∧
        o.sh.trace = [] ++ [.call siteB 2]) ∧
    ¬ Event.get siteB 2 ∈ (run (siteEnv 1) (start siteA "out")
        (List.replicate 7 (0, htmlPage) ++ List.replicate 10 (1, htmlPage) ++
          List.replicate 4 (2, htmlPage))).sh.trace :=
  ⟨by decide, start_fresh _ _,
    (depth_gate (siteEnv 1) (by decide)).1 htmlPage _ ⟨siteB, "out", 2, .enter⟩ rfl (by decide),
    fun h => absurd ((depth_gate (siteEnv 1) (by decide)).2 _ _ (start_fresh _ _) _ _ h)
      (by decide)⟩

/-! ## Link extraction -/

/-- The code at the input of claim C5: for the page with the two anchors
`href="http://site/b"` and `href="http://other/c"`, whatever the library
functions, `parseHTML` calls `download` on no URL at all: line 136 takes the
value of `href` (the reference itself) as the name of the attribute to read at
line 138, and no attribute has that name. The same page with a `data-src`
attribute naming `href` schedules exactly `http://site/b`. -/
theorem host_scope_example :
    (∀ env u, targets env u twoAnchors = []) ∧
    (twoAnchors.filterMap linkByPrecedence = ["http://site/b", "http://other/c"]) ∧
    targets (siteEnv 0) siteA twoNamedAnchors = [siteB] := by
  refine ⟨fun env u => ?_, by decide, by decide⟩
  have h1 : link ⟨"a", [("href", "http://site/b")]⟩ = none := by decide
  have h2 : link ⟨"a", [("href", "http://other/c")]⟩ = none := by decide
  have hf : Find twoAnchors = twoAnchors := by decide
  have t1 : target env u ⟨"a", [("href", "http://site/b")]⟩ = none := by
    simp only [target, h1]
  have t2 : target env u ⟨"a", [("href", "http://other/c")]⟩ = none := by
    simp only [target, h2]
  rw [targets, hf, twoAnchors, List.filterMap_cons, t1, List.filterMap_cons, t2,
    List.filterMap_nil]

/-- The code at the input of claim C6: for the element `<a href="/b">` the callback
returns at line 140 without a link, where the precedence of the specification
gives `/b`; for an element whose `src` value names another of its attributes,
the link is the value of that attribute, not of `src`. -/
theorem link_example :
    link ⟨"a", [("href", "/b")]⟩ = none ∧
    linkByPrecedence ⟨"a", [("href", "/b")]⟩ = some "/b" ∧
    link ⟨"img", [("src", "alt"), ("alt", "logo")]⟩ = some "logo" ∧
    linkByPrecedence ⟨"img", [("src", "alt"), ("alt", "logo")]⟩ = some "alt" := by
  decide

/-! ## Content type and status -/

/-- Claim C8 (strict content-type match). After a successful store (the call stands
at line 118), `download` starts the `parseHTML` goroutine exactly when the
`Content-Type` header is the string `text/html; charset=utf-8`: then it goes on
to the send on `sem`, which puts one token into `sem` as soon as `sem` is not
full; for any other value it returns at once, starting nothing and leaving
`sem` and the rest of the shared state as they are. -/
theorem strict_content_type (env : Env) (inp : Input) (sh : Shared) (c : Call)
    (resp : Response) (hpc : c.pc = .dispatch resp) :
    ((∃ o g, download env inp sh c = some o ∧ o.spawned = some g) ↔
      resp.ContentType = "text/html; charset=utf-8") ∧
    (resp.ContentType = "text/html; charset=utf-8" →
      download env inp sh c =
        some ⟨sh.log (.go c.u c.depth (filePath c.baseDir c.u)), some { c with pc := .send },
          some ⟨some ⟨c.u, c.baseDir, c.depth, filePath c.baseDir c.u, .newDocument⟩, none⟩⟩ ∧
      ∀ inp' sh', sh'.sem < semCap →
        download env inp' sh' { c with pc := .send } =
          some ⟨{ sh'.log .send with sem := sh'.sem + 1 }, none, none⟩) ∧
    (resp.ContentType ≠ "text/html; charset=utf-8" →
      download env inp sh c = some ⟨sh, none, none⟩) := by
  by_cases h : resp.ContentType = "text/html; charset=utf-8"
  · have hh : isHTML resp = true := by simp [isHTML, h]
    refine ⟨⟨fun _ => h, fun _ => ?_⟩, fun _ => ⟨?_, ?_⟩, fun hne => absurd h hne⟩
    · simp [download, hpc, hh]
    · simp [download, hpc, hh]
    · intro inp' sh' hsem
      simp [download, hsem]
  · have hh : isHTML resp = false := by simp [isHTML, h]
    refine ⟨⟨?_, fun hc => absurd hc h⟩, fun hc => absurd hc h, fun _ => ?_⟩
    · rintro ⟨o, g, ho, hg⟩
      simp [download, hpc, hh] at ho
      subst ho
      simp at hg
    · simp [download, hpc, hh]

/-- Witness of C8: the values `text/html` and `text/html; charset=UTF-8` start
nothing; the call returns with the shared state as it is. -/
theorem strict_content_type_witness :
    download (siteEnv 0) htmlPage ⟨fun _ => false, 0, fun _ => none, []⟩
        ⟨siteA, "out", 0, .dispatch ⟨200, "text/html", "<html>"⟩⟩ =
      some ⟨⟨fun _ => false, 0, fun _ => none, []⟩, none, none⟩ ∧
    download (siteEnv 0) htmlPage ⟨fun _ => false, 0, fun _ => none, []⟩
        ⟨siteA, "out", 0, .dispatch ⟨200, "text/html; charset=UTF-8", "<html>"⟩⟩ =
      some ⟨⟨fun _ => false, 0, fun _ => none, []⟩, none, none⟩ :=
  ⟨(strict_content_type (siteEnv 0) htmlPage _ ⟨siteA, "out", 0, .dispatch _⟩
      ⟨200, "text/html", "<html>"⟩ rfl).2.2 (by decide),
   (strict_content_type (siteEnv 0) htmlPage _ ⟨siteA, "out", 0, .dispatch _⟩
      ⟨200, "text/html; charset=UTF-8", "<html>"⟩ rfl).2.2 (by decide)⟩

/-- The claim C9 fails at the status 204, a success code of the 2xx class: the
fetch returns a response, storage would succeed, and `download` abandons the
target. After the crawl of `http://site/a` the call has returned, no file is
stored at the mapped path, and the URL stays marked. -/
theorem nonSuccessStatus_counterexample :
    ((200 : Int) ≤ 204 ∧ (204 : Int) < 300) ∧
    (run (siteEnv 0) (start siteA "out")
      (List.replicate 6 (0, answer 204 "text/html; charset=utf-8" "<html>" []))).sh.files
        (filePath "out" siteA) = none ∧
    (run (siteEnv 0) (start siteA "out")
      (List.replicate 6 (0, answer 204 "text/html; charset=utf-8" "<html>" []))).gs =
        [⟨none, none⟩] ∧
    (run (siteEnv 0) (start siteA "out")
      (List.replicate 6 (0, answer 204 "text/html; charset=utf-8" "<html>" []))).sh.visited
        "http://site/a" = true := by
  decide

/-- Claim C9 as amended (status other than 200). When `http.Get` returns a response,
`download` abandons the target exactly when the status is not 200
(`http.StatusOK`): it returns at once, with the files, the map `visited` (so the
URL stays claimed, and a later call on it returns at the claim) and `sem`
unchanged and no goroutine started. For the status 200, when storage does not
fail, the call goes through `os.MkdirAll`, `os.Create` and `io.Copy`, whatever
other goroutines do in between, and `io.Copy` leaves the full body at the mapped
path. -/
theorem nonSuccessStatus (env : Env) (inp : Input) (sh : Shared) (c : Call) (resp : Response)
    (hpc : c.pc = .get) (hresp : inp.resp = some resp) :
    (resp.StatusCode ≠ 200 →
      download env inp sh c = some ⟨sh.log (.get c.u c.depth), none, none⟩ ∧
      ∀ inp' sh' c', c'.pc = .enter → sh'.visited (env.urlString c'.u) = true →
        ∃ o, download env inp' sh' c' = some o ∧ o.next = none ∧ o.spawned = none ∧
          o.sh.files = sh'.files) ∧
    (resp.StatusCode = 200 →
      download env inp sh c =
        some ⟨sh.log (.get c.u c.depth), some { c with pc := .mkdirAll resp }, none⟩ ∧
      ∀ inp' sh', inp'.ok = true →
        download env inp' sh' { c with pc := .mkdirAll resp } =
          some ⟨sh'.log (.mkdirAll (Dir (filePath c.baseDir c.u))),
            some { c with pc := .create resp }, none⟩ ∧
        (∃ o, download env inp' sh' { c with pc := .create resp } = some o ∧
          o.next = some { c with pc := .copy resp } ∧ o.spawned = none) ∧
        (∃ o, download env inp' sh' { c with pc := .copy resp } = some o ∧
          o.next = some { c with pc := .dispatch resp } ∧ o.spawned = none ∧
          o.sh.files (filePath c.baseDir c.u) = some resp.Body)) := by
  constructor
  · intro hst
    have hst' : resp.StatusCode ≠ StatusOK := hst
    refine ⟨by simp [download, hpc, hresp, hst'], ?_⟩
    intro inp' sh' c' hpc' hv
    by_cases hg : depthGate env.recursionDepth c'.depth = true
    · exact ⟨⟨sh'.log (.call c'.u c'.depth), none, none⟩,
        by simp [download, hpc', hg], rfl, rfl, rfl⟩
    · exact ⟨⟨sh'.log (.call c'.u c'.depth), none, none⟩,
        by simp [download, hpc', hg, claim, hv, Shared.log], rfl, rfl, rfl⟩
  · intro hst
    have hst' : resp.StatusCode = StatusOK := hst
    refine ⟨by simp [download, hpc, hresp, hst'], ?_⟩
    intro inp' sh' hok
    refine ⟨by simp [download, hok],
      ⟨⟨{ sh'.log (.create (filePath c.baseDir c.u)) with
            files := Function.update sh'.files (filePath c.baseDir c.u) (some "") },
          some { c with pc := .copy resp }, none⟩,
        by simp only [download, hok, if_true], rfl, rfl⟩,
      ⟨⟨{ sh'.log (.copy (filePath c.baseDir c.u) resp.Body) with
            files := Function.update sh'.files (filePath c.baseDir c.u) (some resp.Body) },
          some { c with pc := .dispatch resp }, none⟩,
        by simp only [download, hok, if_true], rfl, rfl, ?_⟩⟩
    simp

/-- Witness of C9: the statuses 404 and 200 on the small site. -/
theorem nonSuccessStatus_witness :
    download (siteEnv 0) (answer 404 "text/html; charset=utf-8" "gone" [])
        ⟨fun _ => false, 0, fun _ => none, []⟩ ⟨siteA, "out", 0, .get⟩ =
      some ⟨Shared.log ⟨fun _ => false, 0, fun _ => none, []⟩ (.get siteA 0), none, none⟩ ∧
    download (siteEnv 0) htmlPage
        ⟨fun _ => false, 0, fun _ => none, []⟩ ⟨siteA, "out", 0, .get⟩ =
      some ⟨Shared.log ⟨fun _ => false, 0, fun _ => none, []⟩ (.get siteA 0),
        some ⟨siteA, "out", 0, .mkdirAll ⟨200, "text/html; charset=utf-8", "<html>"⟩⟩, none⟩ :=
  ⟨((nonSuccessStatus (siteEnv 0) (answer 404 "text/html; charset=utf-8" "gone" []) _
      ⟨siteA, "out", 0, .get⟩ ⟨404, "text/html; charset=utf-8", "gone"⟩ rfl rfl).1
      (by decide)).1,
   ((nonSuccessStatus (siteEnv 0) htmlPage _
      ⟨siteA, "out", 0, .get⟩ ⟨200, "text/html; charset=utf-8", "<html>"⟩ rfl rfl).2
      (by decide)).1⟩

/-! ## Depth 0: no limit -/

theorem depthGate_of_nonpos (N d : Int) (hN : N ≤ 0) : depthGate N d = false := by
  simp [depthGate, hN]

theorem event_eraseDepth_idem (e : Event) : e.eraseDepth.eraseDepth = e.eraseDepth := by
  cases e <;> rfl

theorem event_eraseDepth_comp : Event.eraseDepth ∘ Event.eraseDepth = Event.eraseDepth :=
  funext event_eraseDepth_idem

theorem event_eraseDepth_call (u : URL) (d : Int) : (Event.call u d).eraseDepth = .call u 0 := rfl

theorem event_eraseDepth_get (u : URL) (d : Int) : (Event.get u d).eraseDepth = .get u 0 := rfl

theorem event_eraseDepth_go (u : URL) (d : Int) (f : String) :
    (Event.go u d f).eraseDepth = .go u 0 f := rfl

theorem task_eraseDepth_comp : Task.eraseDepth ∘ Task.eraseDepth = Task.eraseDepth :=
  funext fun _ => rfl

theorem call_eraseDepth_comp : Call.eraseDepth ∘ Call.eraseDepth = Call.eraseDepth :=
  funext fun _ => rfl

theorem goroutine_eraseDepth_comp :
    Goroutine.eraseDepth ∘ Goroutine.eraseDepth = Goroutine.eraseDepth := by
  funext g
  simp [Goroutine.eraseDepth, task_eraseDepth_comp, call_eraseDepth_comp]

theorem shared_eraseDepth_log (sh : Shared) (e : Event) :
    (sh.log e).eraseDepth = sh.eraseDepth.log e.eraseDepth := by
  simp [Shared.log, Shared.eraseDepth]

theorem shared_eraseDepth_idem (sh : Shared) : sh.eraseDepth.eraseDepth = sh.eraseDepth := by
  simp [Shared.eraseDepth, event_eraseDepth_comp]

/-- With no depth limit, a step of `download` does the same on a call and on the
call with its depth, and the depths of the history, set to zero, up to depths. -/
theorem download_eraseDepth {env : Env} (h0 : env.recursionDepth = 0) (inp : Input)
    (sh : Shared) (c : Call) :
    (download env inp sh c).map
        (fun o => (o.sh.eraseDepth, o.next.map Call.eraseDepth,
          o.spawned.map Goroutine.eraseDepth)) =
      (download env inp sh.eraseDepth c.eraseDepth).map
        (fun o => (o.sh.eraseDepth, o.next.map Call.eraseDepth,
          o.spawned.map Goroutine.eraseDepth)) := by
  have hg : ∀ d, depthGate env.recursionDepth d = false :=
    fun d => depthGate_of_nonpos _ d (le_of_eq h0)
  obtain ⟨u, baseDir, depth, pc⟩ := c
  cases pc <;>
    simp only [download, Call.eraseDepth, hg, Bool.false_eq_true, if_false]
  · -- enter
    simp only [claim, Shared.log, Shared.eraseDepth]
    split <;>
      simp [Shared.eraseDepth, event_eraseDepth_comp, event_eraseDepth_call, Call.eraseDepth]
  · -- get
    repeat' split
    all_goals
      simp_all [Shared.eraseDepth, Shared.log, event_eraseDepth_comp, event_eraseDepth_call,
        event_eraseDepth_get, event_eraseDepth_go, Call.eraseDepth]
  all_goals
    repeat' split
    all_goals
      simp_all [Shared.eraseDepth, Shared.log, event_eraseDepth_comp, event_eraseDepth_call,
        event_eraseDepth_get, event_eraseDepth_go, Call.eraseDepth, Goroutine.eraseDepth,
        Task.eraseDepth] <;> omega

/-- A step of `parseHTML` does the same on a task and on the task with its depth,
and the depths of the history, set to zero, up to depths. -/
theorem parseHTML_eraseDepth (env : Env) (inp : Input) (sh : Shared) (t : Task) :
    (parseHTML env inp sh t).map
        (fun o => (o.sh.eraseDepth, o.next.1.eraseDepth, o.next.2.map Call.eraseDepth,
          o.spawned.map Goroutine.eraseDepth)) =
      (parseHTML env inp sh.eraseDepth t.eraseDepth).map
        (fun o => (o.sh.eraseDepth, o.next.1.eraseDepth, o.next.2.map Call.eraseDepth,
          o.spawned.map Goroutine.eraseDepth)) := by
  obtain ⟨u, baseDir, depth, filePath, loc⟩ := t
  cases loc with
  | each todo =>
    cases todo <;> simp only [parseHTML, Task.eraseDepth]
    · simp [shared_eraseDepth_idem, Task.eraseDepth]
    · split <;> simp [shared_eraseDepth_idem, Task.eraseDepth, Call.eraseDepth]
  | _ =>
    simp only [parseHTML, Task.eraseDepth]
    repeat' split
    all_goals
      simp_all [Shared.eraseDepth, Shared.log, event_eraseDepth_comp, event_eraseDepth_call,
        event_eraseDepth_get, event_eraseDepth_go, Task.eraseDepth]

theorem gstep_eraseDepth {env : Env} (h0 : env.recursionDepth = 0) (inp : Input)
    (sh : Shared) (g : Goroutine) :
    (g.step env inp sh).map
        (fun o => (o.sh.eraseDepth, o.next.eraseDepth, o.spawned.map Goroutine.eraseDepth)) =
      (g.eraseDepth.step env inp sh.eraseDepth).map
        (fun o => (o.sh.eraseDepth, o.next.eraseDepth, o.spawned.map Goroutine.eraseDepth)) := by
  obtain ⟨task, call⟩ := g
  cases call with
  | some c =>
    have h := download_eraseDepth h0 inp sh c
    simp only [Goroutine.step, Goroutine.eraseDepth, Option.map_some']
    cases h1 : download env inp sh c <;> cases h2 : download env inp sh.eraseDepth c.eraseDepth <;>
      simp_all [Goroutine.eraseDepth, task_eraseDepth_comp]
  | none =>
    cases task with
    | none => simp [Goroutine.step, Goroutine.eraseDepth]
    | some t =>
      have h := parseHTML_eraseDepth env inp sh t
      simp only [Goroutine.step, Goroutine.eraseDepth, Option.map_some', Option.map_none']
      cases h1 : parseHTML env inp sh t <;>
        cases h2 : parseHTML env inp sh.eraseDepth t.eraseDepth <;>
        simp_all [Goroutine.eraseDepth, task_eraseDepth_comp]

theorem step_eraseDepth {env : Env} (h0 : env.recursionDepth = 0) (s : State) (i : Nat)
    (inp : Input) :
    (step env s i inp).map State.eraseDepth = (step env s.eraseDepth i inp).map State.eraseDepth := by
  have hget : s.eraseDepth.gs[i]? = (s.gs[i]?).map Goroutine.eraseDepth := by
    simp [State.eraseDepth]
  unfold step
  rw [hget]
  cases hg : s.gs[i]? with
  | none => simp
  | some g =>
    have h := gstep_eraseDepth h0 inp s.sh g
    simp only [Option.map_some']
    have hsh : s.eraseDepth.sh = s.sh.eraseDepth := rfl
    rw [hsh]
    cases h1 : g.step env inp s.sh <;> cases h2 : g.eraseDepth.step env inp s.sh.eraseDepth <;>
      simp_all [State.eraseDepth, List.map_set]
    rename_i a b
    have hsp : List.map Goroutine.eraseDepth a.spawned.toList =
        List.map Goroutine.eraseDepth b.spawned.toList := by
      have h3 := h.2.2
      cases ha : a.spawned <;> cases hb : b.spawned <;> simp_all
    rw [goroutine_eraseDepth_comp, hsp]

theorem run_eraseDepth {env : Env} (h0 : env.recursionDepth = 0) (sched : List (Nat × Input)) :
    ∀ s s' : State, s.eraseDepth = s'.eraseDepth →
      (run env s sched).eraseDepth = (run env s' sched).eraseDepth := by
  induction sched with
  | nil => exact fun s s' h => h
  | cons a rest ih =>
    obtain ⟨i, inp⟩ := a
    intro s s' h
    simp only [run]
    apply ih
    have h12 : (step env s i inp).map State.eraseDepth =
        (step env s' i inp).map State.eraseDepth := by
      rw [step_eraseDepth h0 s i inp, step_eraseDepth h0 s' i inp, h]
    cases hs : step env s i inp with
    | none =>
      cases hs' : step env s' i inp with
      | none => simpa using h
      | some b => simp [hs, hs'] at h12
    | some a =>
      cases hs' : step env s' i inp with
      | none => simp [hs, hs'] at h12
      | some b => simpa [hs, hs'] using h12

theorem incr_eq (d : Int) (h0 : 0 ≤ d) (h1 : d < 2 ^ 63 - 1) : incr d = d + 1 := by
  unfold incr
  omega

/-- Claim C10 (depth 0 means unlimited). With the recursion depth configured as 0
the depth gate of `download` drops no call, whatever its depth. The run of the
process is then independent of the depths: two states that differ only in the
depths of their calls, tasks and recorded events are taken, along every
schedule and for all answers of the outside world, to states that differ only
in those depths (same `visited`, same files, same `sem`, same goroutines at the
same program points, same events). The depth itself is only handed on: the call
made by `parseHTML` for a link has the depth of its task plus one. -/
theorem depth_zero_unlimited (env : Env) (h0 : env.recursionDepth = 0) :
    (∀ d, depthGate env.recursionDepth d = false) ∧
    (∀ s s' sched, s.eraseDepth = s'.eraseDepth →
      (run env s sched).eraseDepth = (run env s' sched).eraseDepth) ∧
    (∀ inp sh t o c, parseHTML env inp sh t = some o → o.next.2 = some c →
      c.depth = incr t.depth) ∧
    (∀ d : Int, 0 ≤ d → d < 2 ^ 63 - 1 → incr d = d + 1) :=
  ⟨fun d => depthGate_of_nonpos _ d (le_of_eq h0),
    fun s s' sched h => run_eraseDepth h0 sched s s' h,
    fun _ _ _ _ c h hc => ((parseHTML_frame h).2.1 c hc).2.2.1,
    incr_eq⟩

/-- Witness of C10: the small site crawled with `-depth 0`; a call at depth 1000
passes the gate, and the crawl started at depth 7 fetches what the crawl started
at depth 0 fetches. -/
theorem depth_zero_unlimited_witness :
    (siteEnv 0).recursionDepth = 0 ∧
    depthGate (siteEnv 0).recursionDepth 1000 = false ∧
    (run (siteEnv 0) ⟨⟨fun _ => false, 0, fun _ => none, []⟩,
        [⟨none, some ⟨siteA, "out", 7, .enter⟩⟩]⟩
      (List.replicate 7 (0, htmlPage) ++ List.replicate 8 (1, htmlPage))).eraseDepth =
    (run (siteEnv 0) (start siteA "out")
      (List.replicate 7 (0, htmlPage) ++ List.replicate 8 (1, htmlPage))).eraseDepth :=
  ⟨rfl, (depth_zero_unlimited (siteEnv 0) rfl).1 1000,
    (depth_zero_unlimited (siteEnv 0) rfl).2.1 _ _ _ rfl⟩


/-! ## The path mapping -/

theorem cleanLoop_nil (rooted : Bool) (fuel : Nat) (out : List Char) (dd : Nat) :
    cleanLoop rooted fuel [] out dd = out := by
  cases fuel <;> rfl

theorem cleanLoop_sep (rooted : Bool) (fuel : Nat) (rest out : List Char) (dd : Nat) :
    cleanLoop rooted (fuel + 1) ('/' :: rest) out dd = cleanLoop rooted fuel rest out dd := by
  simp [cleanLoop, isSep]

theorem takeWhile_segment (x rest : List Char) (hx : ∀ c ∈ x, isSep c = false)
    (hrest : AtBoundary rest) :
    (x ++ rest).takeWhile (fun c => !isSep c) = x ∧
    (x ++ rest).dropWhile (fun c => !isSep c) = rest := by
  have hp : ∀ c ∈ x, (fun c => !isSep c) c = true := fun c hc => by simp [hx c hc]
  rw [List.takeWhile_append_of_pos hp, List.dropWhile_append_of_pos hp]
  rcases hrest with rfl | ⟨r, rfl⟩
  · simp
  · simp [isSep]

/-- One iteration of the loop of `filepath.Clean` on an ordinary segment: the
segment is copied, after a separator when the buffer needs one. -/
theorem cleanLoop_segment (rooted : Bool) (fuel : Nat) (x rest out : List Char) (dd : Nat)
    (hx : OrdinaryChars x) (hrest : AtBoundary rest) :
    cleanLoop rooted (fuel + 1) (x ++ rest) out dd =
      cleanLoop rooted fuel rest ((if needSep rooted out then out ++ ['/'] else out) ++ x) dd := by
  obtain ⟨hne, hsep, hdot, hdotdot⟩ := hx
  obtain ⟨htake, hdrop⟩ := takeWhile_segment x rest hsep hrest
  cases x with
  | nil => exact absurd rfl hne
  | cons c x' =>
    have hc : isSep c = false := hsep c (by simp)
    have h2 : (c == '.' && ((x' ++ rest).isEmpty || (x' ++ rest).head?.any isSep)) = false := by
      cases x' with
      | nil =>
        have : c ≠ '.' := fun h => hdot (by simp [h])
        simp [this]
      | cons c2 x'' =>
        have hc2 : isSep c2 = false := hsep c2 (by simp)
        simp [hc2]
    have h3 : (c == '.' && (x' ++ rest).head? == some '.' &&
        ((x' ++ rest).tail.isEmpty || (x' ++ rest).tail.head?.any isSep)) = false := by
      cases x' with
      | nil =>
        have : c ≠ '.' := fun h => hdot (by simp [h])
        simp [this]
      | cons c2 x'' =>
        cases x'' with
        | nil =>
          have : ¬ (c = '.' ∧ c2 = '.') := fun h => hdotdot (by simp [h.1, h.2])
          by_cases h1 : c = '.'
          · have : c2 ≠ '.' := fun h => this ⟨h1, h⟩
            simp [this]
          · simp [h1]
        | cons c3 x3 =>
          have hc3 : isSep c3 = false := hsep c3 (by simp)
          simp [hc3]
    rw [List.cons_append] at htake hdrop ⊢
    rw [cleanLoop]
    simp only [hc, Bool.false_eq_true, if_false, h2, h3, htake, hdrop, needSep]

theorem segmentsAux_run (x : List Char) :
    ∀ (cur rest : List Char), (∀ c ∈ x, isSep c = false) →
      segmentsAux cur (x ++ rest) = segmentsAux (cur ++ x) rest := by
  induction x with
  | nil => intro cur rest _; simp
  | cons c x ih =>
    intro cur rest hx
    rw [List.cons_append, segmentsAux, if_neg (by simp [hx c (by simp)]),
      ih _ _ (fun d hd => hx d (by simp [hd]))]
    simp

theorem dropWhile_atBoundary (path : List Char) :
    AtBoundary (path.dropWhile fun c => !isSep c) := by
  induction path with
  | nil => exact Or.inl rfl
  | cons c rest ih =>
    by_cases hc : isSep c = true
    · have hc' : c = '/' := by simpa [isSep] using hc
      subst hc'
      exact Or.inr ⟨rest, by simp [List.dropWhile_cons, isSep]⟩
    · simpa [List.dropWhile_cons, hc] using ih

/-- A path that starts inside a segment: its segments are that segment and the
segments of what follows it. -/
theorem segmentsAux_segment (x rest : List Char) (hne : x ≠ [])
    (hx : ∀ c ∈ x, isSep c = false) (hrest : AtBoundary rest) :
    segmentsAux [] (x ++ rest) = x :: segmentsAux [] rest := by
  rw [segmentsAux_run x [] rest hx, List.nil_append]
  have hemp : x.isEmpty = false := by
    cases x with
    | nil => exact absurd rfl hne
    | cons _ _ => rfl
  rcases hrest with rfl | ⟨r, rfl⟩
  · simp [segmentsAux, hemp]
  · simp [segmentsAux, isSep, hemp]

theorem segmentsAux_sep (rest : List Char) :
    segmentsAux [] ('/' :: rest) = segmentsAux [] rest := by
  simp [segmentsAux, isSep]

theorem segmentsAux_append_sep (a : List Char) :
    ∀ (cur b : List Char),
      segmentsAux cur (a ++ '/' :: b) = segmentsAux cur a ++ segmentsAux [] b := by
  induction a with
  | nil =>
    intro cur b
    cases cur <;> simp [segmentsAux, isSep]
  | cons c a ih =>
    intro cur b
    by_cases hc : isSep c = true
    · cases cur <;> simp [segmentsAux, hc, ih]
    · simp [segmentsAux, hc, ih]

/-- The decomposition of a path that starts with a character other than the slash
into its first segment and the rest. -/
theorem first_segment (c : Char) (rest : List Char) (hc : isSep c = false) :
    ∃ x rest', c :: rest = x ++ rest' ∧ x ≠ [] ∧ (∀ d ∈ x, isSep d = false) ∧
      AtBoundary rest' ∧ rest'.length ≤ rest.length := by
  refine ⟨(c :: rest).takeWhile (fun d => !isSep d), (c :: rest).dropWhile (fun d => !isSep d),
    (List.takeWhile_append_dropWhile _ _).symm, ?_, ?_, dropWhile_atBoundary _, ?_⟩
  · simp [List.takeWhile_cons, hc]
  · intro d hd
    simpa using List.mem_takeWhile_imp hd
  · have h := congrArg List.length (List.takeWhile_append_dropWhile (fun d => !isSep d) (c :: rest))
    simp only [List.length_append, List.length_cons] at h
    have h1 : 1 ≤ ((c :: rest).takeWhile (fun d => !isSep d)).length := by
      simp [List.takeWhile_cons, hc]
    omega

theorem needSep_of_length (rooted : Bool) (out : List Char) (h : 2 ≤ out.length) :
    needSep rooted out = true := by
  cases rooted <;> (simp [needSep]; try omega)
  intro h0
  simp [h0] at h

theorem needSep_after_first (rooted : Bool) (out x : List Char)
    (h : needSep rooted out = false) (hx : x ≠ []) : needSep rooted (out ++ x) = true := by
  have hxl : 1 ≤ x.length := List.length_pos.mpr hx
  cases rooted
  · simp [needSep] at h ⊢
    exact fun _ => hx
  · simp [needSep] at h ⊢
    omega

/-- The loop of `filepath.Clean` over a path without `.` and `..` segments, once
the buffer needs a separator: every segment is copied behind one separator. -/
theorem cleanLoop_noDots (rooted : Bool) (dd : Nat) :
    ∀ (fuel : Nat) (path out : List Char), path.length ≤ fuel →
      (∀ x ∈ segmentsAux [] path, x ≠ ['.'] ∧ x ≠ ['.', '.']) → needSep rooted out = true →
      cleanLoop rooted fuel path out dd = out ++ behindSeps (segmentsAux [] path) := by
  intro fuel
  induction fuel with
  | zero =>
    intro path out hlen _ _
    have : path = [] := List.length_eq_zero.mp (Nat.le_zero.mp hlen)
    subst this
    simp [cleanLoop, segmentsAux, behindSeps]
  | succ f ih =>
    intro path out hlen hseg hneed
    cases path with
    | nil => simp [cleanLoop, segmentsAux, behindSeps]
    | cons c rest =>
      simp only [List.length_cons] at hlen
      by_cases hc : isSep c = true
      · have hc' : c = '/' := by simpa [isSep] using hc
        subst hc'
        rw [cleanLoop_sep, segmentsAux_sep]
        rw [segmentsAux_sep] at hseg
        exact ih rest out (by omega) hseg hneed
      · have hc' : isSep c = false := by simpa using hc
        obtain ⟨x, rest', hdec, hne, hx, hb, hl⟩ := first_segment c rest hc'
        have hsegs := segmentsAux_segment x rest' hne hx hb
        rw [hdec] at hseg ⊢
        rw [hsegs] at hseg ⊢
        have hord : OrdinaryChars x := ⟨hne, hx, hseg x (by simp)⟩
        rw [cleanLoop_segment rooted f x rest' out dd hord hb, hneed, if_pos rfl]
        have hxl : 1 ≤ x.length := List.length_pos.mpr hne
        have hneed' : needSep rooted (out ++ ['/'] ++ x) = true :=
          needSep_of_length rooted _
            (by simp only [List.length_append, List.length_singleton]; omega)
        rw [ih rest' (out ++ ['/'] ++ x) (by omega)
          (fun y hy => hseg y (by simp [hy])) hneed']
        simp [behindSeps]

/-- The loop of `filepath.Clean` over a path without `.` and `..` segments, while
the buffer needs no separator (it is empty, or holds the leading slash): the
segments are copied with one separator between neighbours. -/
theorem cleanLoop_noDots_first (rooted : Bool) (dd : Nat) :
    ∀ (fuel : Nat) (path out : List Char), path.length ≤ fuel →
      (∀ x ∈ segmentsAux [] path, x ≠ ['.'] ∧ x ≠ ['.', '.']) → needSep rooted out = false →
      cleanLoop rooted fuel path out dd = out ++ (behindSeps (segmentsAux [] path)).drop 1 := by
  intro fuel
  induction fuel with
  | zero =>
    intro path out hlen _ _
    have : path = [] := List.length_eq_zero.mp (Nat.le_zero.mp hlen)
    subst this
    simp [cleanLoop, segmentsAux, behindSeps]
  | succ f ih =>
    intro path out hlen hseg hneed
    cases path with
    | nil => simp [cleanLoop, segmentsAux, behindSeps]
    | cons c rest =>
      simp only [List.length_cons] at hlen
      by_cases hc : isSep c = true
      · have hc' : c = '/' := by simpa [isSep] using hc
        subst hc'
        rw [cleanLoop_sep, segmentsAux_sep]
        rw [segmentsAux_sep] at hseg
        exact ih rest out (by omega) hseg hneed
      · have hc' : isSep c = false := by simpa using hc
        obtain ⟨x, rest', hdec, hne, hx, hb, hl⟩ := first_segment c rest hc'
        have hsegs := segmentsAux_segment x rest' hne hx hb
        rw [hdec] at hseg ⊢
        rw [hsegs] at hseg ⊢
        have hord : OrdinaryChars x := ⟨hne, hx, hseg x (by simp)⟩
        rw [cleanLoop_segment rooted f x rest' out dd hord hb, hneed]
        have hneed' : needSep rooted (out ++ x) = true :=
          needSep_after_first rooted out x hneed hne
        simp only [Bool.false_eq_true, if_false]
        rw [cleanLoop_noDots rooted dd f rest' (out ++ x) (by omega)
          (fun y hy => hseg y (by simp [hy])) hneed']
        simp [behindSeps]

/-- The function `filepath.Clean` on a path that is not empty and has no `.` and
no `..` segment: the segments of the path, joined by single slashes, behind a
leading slash when the path is rooted. -/
theorem cleanChars_noDots (path : List Char) (hne : path ≠ [])
    (hseg : ∀ x ∈ segmentsAux [] path, x ≠ ['.'] ∧ x ≠ ['.', '.']) :
    cleanChars path =
      (if path.head?.any isSep then ['/'] else []) ++
        (behindSeps (segmentsAux [] path)).drop 1 := by
  cases path with
  | nil => exact absurd rfl hne
  | cons c rest =>
    by_cases hc : isSep c = true
    · have hc' : c = '/' := by simpa [isSep] using hc
      subst hc'
      have h := cleanLoop_noDots_first true 1 ('/' :: rest).length rest ['/']
        (by simp) (by simpa [segmentsAux_sep] using hseg) (by simp [needSep])
      simp only [cleanChars, hc, if_true, h, segmentsAux_sep]
      simp [isSep]
    · have hc' : isSep c = false := by simpa using hc
      have h := cleanLoop_noDots_first false 0 (c :: rest).length (c :: rest) []
        (le_refl _) hseg (by simp [needSep])
      obtain ⟨x, rest', hdec, hxne, hx, hb, -⟩ := first_segment c rest hc'
      have hsegs : segmentsAux [] (c :: rest) = x :: segmentsAux [] rest' := by
        rw [hdec]
        exact segmentsAux_segment x rest' hxne hx hb
      have hout : ([] ++ (behindSeps (segmentsAux [] (c :: rest))).drop 1).isEmpty = false := by
        rw [hsegs]
        cases x with
        | nil => exact absurd rfl hxne
        | cons _ _ => simp [behindSeps]
      simp only [cleanChars, hc', Bool.false_eq_true, if_false, h, hout]
      simp [hc']

theorem slashJoin_data (x : String) (xs : List String) :
    (slashJoin (x :: xs)).data = x.data ++ behindSeps (xs.map String.data) := by
  induction xs generalizing x with
  | nil => simp [slashJoin, behindSeps]
  | cons y ys ih =>
    rw [slashJoin, String.data_append, String.data_append, ih y]
    simp [behindSeps]

theorem slashJoin_mk (segs : List (List Char)) :
    (slashJoin (segs.map String.mk)).data = (behindSeps segs).drop 1 := by
  cases segs with
  | nil => rfl
  | cons x xs =>
    rw [List.map_cons, slashJoin_data]
    simp [behindSeps, Function.comp_def]

theorem relPath_eq (path : String) :
    relPath path = if path = "" ∨ path = "/" then "index.html" else path := by
  unfold relPath FromSlash
  split
  · rfl
  · split <;> rfl

/-- Claim C7 as amended (path mapping without `.` and `..` segments). For every
mirror root `r` that is not empty and every URL path `p`, neither with a segment
`.` or `..`, the local path computed by `download` is the path mapping of the
specification: the segments of `r` followed by `index.html` when `p` is empty or
exactly `/`, and by the segments of `p` otherwise, joined by single slashes
(behind a leading slash when `r` is absolute). -/
theorem path_mapping (r : String) (u : URL) (hr : r ≠ "") (hrd : NoDots r)
    (hpd : NoDots u.Path) : filePath r u = mapRef r u.Path := by
  have hrne : r.data ≠ [] := fun h => hr (String.ext h)
  have hrel : NoDots (relPath u.Path) := by
    rw [relPath_eq]
    split
    · intro x hx
      have hidx : segmentsAux [] "index.html".data = ["index.html".data] := by decide
      rw [hidx, List.mem_singleton] at hx
      subst hx
      exact ⟨by decide, by decide⟩
    · exact hpd
  have hsegs : (if u.Path = "" ∨ u.Path = "/" then ["index.html"] else segments u.Path) =
      segments (relPath u.Path) := by
    rw [relPath_eq]
    split
    · decide
    · rfl
  have hdata : (r ++ "/" ++ relPath u.Path).data = r.data ++ '/' :: (relPath u.Path).data := by
    simp [String.data_append]
  have hall : ∀ x ∈ segmentsAux [] (r.data ++ '/' :: (relPath u.Path).data),
      x ≠ ['.'] ∧ x ≠ ['.', '.'] := by
    intro x hx
    rw [segmentsAux_append_sep, List.mem_append] at hx
    rcases hx with hx | hx
    · exact hrd x hx
    · exact hrel x hx
  have hhead : (r.data ++ '/' :: (relPath u.Path).data).head?.any isSep = IsAbs r := by
    unfold IsAbs
    cases hd : r.data with
    | nil => exact absurd hd hrne
    | cons c t => rfl
  have hclean := cleanChars_noDots (r.data ++ '/' :: (relPath u.Path).data) (by simp) hall
  apply String.ext
  simp only [filePath, Join, hr, ne_eq, not_false_eq_true, if_true, Clean, mapRef, hdata, hsegs]
  rw [hclean, hhead, segmentsAux_append_sep, String.data_append, segments, segments,
    ← List.map_append, slashJoin_mk]
  cases IsAbs r <;> rfl

/-- The claim C7 fails on a URL path with a `..` segment: `filepath.Join` cleans the
joined path, so for the root `out` and the path `/a/../b` (segments `a`, `..`,
`b`) the local path is `out/b`, not the root followed by the segments of the
path; and for the path `/../x` it is `x`, outside the mirror root. -/
theorem path_mapping_counterexample :
    segments "/a/../b" = ["a", "..", "b"] ∧
    filePath "out" ⟨"http", "site", "/a/../b", "", ""⟩ = "out/b" ∧
    mapRef "out" "/a/../b" = "out/a/../b" ∧
    filePath "out" ⟨"http", "site", "/a/../b", "", ""⟩ ≠ mapRef "out" "/a/../b" ∧
    filePath "out" ⟨"http", "site", "/../x", "", ""⟩ = "x" := by
  decide

/-- Witness of C7: `http://site/docs/readme`, `http://site/` and `http://site` under
the mirror root `out`. -/
theorem path_mapping_witness :
    filePath "out" ⟨"http", "site", "/docs/readme", "", ""⟩ = "out/docs/readme" ∧
    filePath "out" ⟨"http", "site", "/", "", ""⟩ = "out/index.html" ∧
    filePath "out" ⟨"http", "site", "", "", ""⟩ = "out/index.html" :=
  ⟨path_mapping "out" ⟨"http", "site", "/docs/readme", "", ""⟩ (by decide) (by decide)
      (by decide),
   path_mapping "out" ⟨"http", "site", "/", "", ""⟩ (by decide) (by decide) (by decide),
   path_mapping "out" ⟨"http", "site", "", "", ""⟩ (by decide) (by decide) (by decide)⟩


/-! ## Tasks and tokens -/

theorem spawns_append (tr : List Event) (e : Event) :
    spawns (tr ++ [e]) = spawns tr + (if e.isGo then 1 else 0) := by
  simp [spawns, List.countP_append, List.countP_cons]

theorem sends_append (tr : List Event) (e : Event) :
    sends (tr ++ [e]) = sends tr + (if e = .send then 1 else 0) := by
  simp [sends, List.count_append, List.count_cons]

theorem recvs_append (tr : List Event) (e : Event) :
    recvs (tr ++ [e]) = recvs tr + (if e = .recv then 1 else 0) := by
  simp [recvs, List.count_append, List.count_cons]

/-- What one action of a goroutine does to the bookkeeping of tasks and tokens. -/
theorem gstep_counts {env : Env} {inp : Input} {sh : Shared} {g : Goroutine}
    {o : Outcome Goroutine} (h : g.step env inp sh = some o) :
    (∀ g', o.spawned = some g' → g'.live = true ∧ g'.sending = false) ∧
    spawns o.sh.trace = spawns sh.trace + o.spawned.toList.length ∧
    sends o.sh.trace + (if o.next.sending then 1 else 0) =
      sends sh.trace + (if g.sending then 1 else 0) + o.spawned.toList.length ∧
    recvs o.sh.trace + (if o.next.live then 1 else 0) =
      recvs sh.trace + (if g.live then 1 else 0) ∧
    o.sh.sem + recvs o.sh.trace + sends sh.trace = sh.sem + recvs sh.trace + sends o.sh.trace ∧
    (sh.sem ≤ semCap → o.sh.sem ≤ semCap) := by
  rcases gstep_cases h with ⟨c, o', hc, hd, rfl⟩ | ⟨t, o', hc, ht, hp, rfl⟩
  · unfold download at hd
    simp only [Shared.log] at hd
    repeat' split at hd
    all_goals
      first
      | contradiction
      | (simp only [Option.some.injEq] at hd
         subst hd
         simp_all [Goroutine.live, Goroutine.sending, spawns_append, sends_append,
           recvs_append, Event.isGo] <;> omega)
  · unfold parseHTML at hp
    simp only [Shared.log] at hp
    repeat' split at hp
    all_goals
      first
      | contradiction
      | (simp only [Option.some.injEq] at hp
         subst hp
         simp_all [Goroutine.live, Goroutine.sending, spawns_append, sends_append,
           recvs_append, Event.isGo] <;> omega)

theorem step_balanced {env : Env} (s : State) (i : Nat) (inp : Input) (s' : State)
    (hs : Balanced s) (h : step env s i inp = some s') : Balanced s' := by
  obtain ⟨g, o, l1, l2, hgs, -, hstep, rfl⟩ := step_inv h
  obtain ⟨h1, h2, h3, h4⟩ := hs
  obtain ⟨ksp, k0, k1, k2, k3, k4⟩ := gstep_counts hstep
  have hspl : o.spawned.toList.countP Goroutine.live = o.spawned.toList.length := by
    cases hsp : o.spawned with
    | none => simp
    | some g' => simp [(ksp g' hsp).1]
  have hsps : o.spawned.toList.countP Goroutine.sending = 0 := by
    cases hsp : o.spawned with
    | none => simp
    | some g' => simp [(ksp g' hsp).2]
  simp only [sending, inFlight, hgs, List.countP_append, List.countP_cons,
    List.countP_nil] at h1 h2
  simp only [Balanced, sending, inFlight, List.countP_append, List.countP_cons,
    List.countP_nil, hspl, hsps]
  refine ⟨?_, ?_, ?_, k4 h4⟩ <;> omega

theorem start_balanced (seed : URL) (outputDir : String) : Balanced (start seed outputDir) := by
  simp [Balanced, start, sends, recvs, spawns, sending, inFlight, Goroutine.sending,
    Goroutine.live]

theorem run_balanced (env : Env) (seed : URL) (outputDir : String)
    (sched : List (Nat × Input)) : Balanced (run env (start seed outputDir) sched) :=
  run_invariant Balanced (fun s1 i inp s2 => step_balanced s1 i inp s2) (start seed outputDir)
    sched (start_balanced seed outputDir)

/-! ## The tasks in flight in a crawl -/

theorem noDoubleSep_of_noSep (l : List Char) (h : ∀ c ∈ l, isSep c = false) : NoDoubleSep l := by
  unfold NoDoubleSep
  induction l with
  | nil => exact List.chain'_nil
  | cons a l ih =>
    cases l with
    | nil => exact List.chain'_singleton a
    | cons b l =>
      refine List.chain'_cons.mpr ⟨?_, ih fun c hc => h c (List.mem_cons_of_mem _ hc)⟩
      rintro ⟨rfl, -⟩
      have := h '/' (List.mem_cons_self _ _)
      simp [isSep] at this

theorem backtrack_spec (out : List Char) (dd : Nat) :
    ∀ w, dd ≤ w → dd ≤ backtrack out dd w ∧ backtrack out dd w ≤ w ∧
      (backtrack out dd w = dd ∨ isSep (out.getD (backtrack out dd w) '/') = true) := by
  intro w
  induction w with
  | zero =>
    intro h
    simp only [backtrack]
    omega
  | succ w ih =>
    intro h
    rw [backtrack]
    split
    · rename_i hc
      simp only [Bool.and_eq_true, decide_eq_true_eq] at hc
      obtain ⟨a, b, c⟩ := ih (by omega)
      exact ⟨a, by omega, c⟩
    · rename_i hc
      refine ⟨h, le_refl _, ?_⟩
      by_cases hd : dd < w + 1
      · right
        simpa [hd] using hc
      · left
        omega

/-- The buffer after the removal of its last element (the `..` case). -/
theorem tidy_backtrack (rooted : Bool) (dd : Nat) (out : List Char) (h : Tidy rooted dd out)
    (hlen : out.length > dd) :
    Tidy rooted dd (out.take (backtrack out dd (out.length - 1))) := by
  obtain ⟨h1, h2, h3, h4⟩ := h
  obtain ⟨b1, b2, b3⟩ := backtrack_spec out dd (out.length - 1) (by omega)
  generalize backtrack out dd (out.length - 1) = w at b1 b2 b3
  have hw : w < out.length := by omega
  refine ⟨List.Chain'.take h1 w, ?_, ?_, ?_⟩
  · simp [List.length_take]
    omega
  · rcases b3 with rfl | b3
    · exact h4
    · intro hl
      exfalso
      have hsplit : out = out.take w ++ out[w] :: out.drop (w + 1) := by
        simp
      have hch := h1
      unfold NoDoubleSep at hch
      rw [hsplit, List.chain'_append] at hch
      have hr := hch.2.2 '/' (by simpa using hl) out[w] (by simp)
      have hs : out[w] = '/' := by
        simpa [isSep, List.getD_eq_getElem?_getD, List.getElem?_eq_getElem hw] using b3
      exact hr ⟨rfl, hs⟩
  · rw [List.take_take, Nat.min_eq_left b1]
    exact h4

/-- The buffer with one more element behind it, a separator put between the two
when `sep` holds; `sep` holds only behind a buffer that does not end with one. -/
theorem tidy_append (rooted : Bool) (dd : Nat) (out x : List Char) (sep : Bool)
    (h : Tidy rooted dd out) (hsep : sep = true → out.getLast? ≠ some '/')
    (hne : x ≠ []) (hx : ∀ c ∈ x, isSep c = false) :
    NoDoubleSep ((if sep then out ++ ['/'] else out) ++ x) ∧
    ((if sep then out ++ ['/'] else out) ++ x).getLast? ≠ some '/' ∧
    ((if sep then out ++ ['/'] else out) ++ x).take dd = out.take dd := by
  obtain ⟨h1, h2, h3, h4⟩ := h
  have hxs : ∀ c ∈ x, c ≠ '/' := fun c hc he => by
    have := hx c hc
    simp [isSep, he] at this
  have hout1 : NoDoubleSep (if sep then out ++ ['/'] else out) := by
    cases sep with
    | false => simpa using h1
    | true =>
      simp only [if_true]
      unfold NoDoubleSep
      refine List.chain'_append.mpr ⟨h1, List.chain'_singleton _, ?_⟩
      intro a ha b _ hab
      exact hsep rfl (by rw [← hab.1]; simpa using ha)
  refine ⟨?_, ?_, ?_⟩
  · unfold NoDoubleSep
    refine List.chain'_append.mpr ⟨hout1, noDoubleSep_of_noSep x hx, ?_⟩
    intro a _ b hb hab
    have hbx : b ∈ x := List.mem_of_mem_head? hb
    exact hxs b hbx hab.2
  · rw [List.getLast?_append_of_ne_nil _ hne]
    intro hl
    exact hxs '/' (List.mem_of_getLast?_eq_some hl) rfl
  · cases sep with
    | false =>
      simp only [Bool.false_eq_true, if_false]
      exact List.take_append_of_le_length h2
    | true =>
      simp only [if_true, List.append_assoc]
      exact List.take_append_of_le_length h2

/-- The loop of `filepath.Clean` never writes two separators in a row. -/
theorem cleanLoop_noDoubleSep (rooted : Bool) :
    ∀ (fuel : Nat) (path out : List Char) (dd : Nat), Tidy rooted dd out →
      NoDoubleSep (cleanLoop rooted fuel path out dd) := by
  intro fuel
  induction fuel with
  | zero =>
    intro path out dd h
    simpa [cleanLoop] using h.1
  | succ fuel ih =>
    intro path out dd h
    cases path with
    | nil => simpa [cleanLoop] using h.1
    | cons c rest =>
      rw [cleanLoop]
      simp only []
      split
      · exact ih _ _ _ h
      split
      · exact ih _ _ _ h
      split
      · split
        · rename_i c4
          exact ih _ _ _ (tidy_backtrack rooted dd out h c4)
        split
        · rename_i c5
          have hr : rooted = false := by simpa using c5
          subst hr
          obtain ⟨a1, a2, a3⟩ := tidy_append false dd out ['.', '.'] (decide (out.length > 0)) h
            (fun _ hl => by simpa using (h.2.2.1 hl).2) (by simp) (by simp [isSep])
          simp only [decide_eq_true_eq] at a1 a2 a3
          refine ih _ _ _ ⟨a1, le_refl _, fun hl => absurd hl a2, ?_⟩
          rw [List.take_length]
          exact fun hl => absurd hl a2
        · exact ih _ _ _ h
      · rename_i c1 _ _
        have hc : isSep c = false := by simpa using c1
        obtain ⟨a1, a2, a3⟩ := tidy_append rooted dd out
          ((c :: rest).takeWhile fun x => !isSep x)
          ((rooted && out.length != 1) || (!rooted && out.length != 0)) h
          (fun hs hl => by
            obtain ⟨e1, e2⟩ := h.2.2.1 hl
            subst e1 e2
            simp at hs)
          (by simp [List.takeWhile, hc])
          (fun x hx => by simpa using (List.mem_takeWhile_imp hx))
        refine ih _ _ _ ⟨a1, ?_, fun hl => absurd hl a2, ?_⟩
        · have := h.2.1
          split_ifs <;> simp <;> omega
        · rw [a3]
          exact h.2.2.2

theorem cleanChars_noDoubleSep (path : List Char) : NoDoubleSep (cleanChars path) := by
  cases path with
  | nil => exact List.chain'_singleton _
  | cons c rest =>
    simp only [cleanChars]
    have hdot : NoDoubleSep ['.'] := List.chain'_singleton _
    cases hc : isSep c with
    | true =>
      have ht : Tidy true 1 ['/'] := ⟨List.chain'_singleton _, le_refl _, by simp, by simp⟩
      have := cleanLoop_noDoubleSep true (c :: rest).length rest ['/'] 1 ht
      simp only [if_true]
      split
      · exact hdot
      · exact this
    | false =>
      have ht : Tidy false 0 [] := ⟨List.chain'_nil, le_refl _, by simp, by simp⟩
      have := cleanLoop_noDoubleSep false (c :: rest).length (c :: rest) [] 0 ht
      simp only [Bool.false_eq_true, if_false]
      split
      · exact hdot
      · exact this

theorem not_requestable (l : List Char) (h : NoDoubleSep l) : requestable ⟨l⟩ = false := by
  simp only [requestable, decide_eq_false_iff_not]
  intro hin
  have := List.Chain'.infix h hin
  simp at this

/-- The file path `download` computes holds no `//`: `http.Get` does not request it. -/
theorem filePath_not_requestable (baseDir : String) (u : URL) :
    requestable (filePath baseDir u) = false := by
  unfold filePath Join
  split_ifs
  · exact not_requestable _ (cleanChars_noDoubleSep _)
  · exact not_requestable _ (cleanChars_noDoubleSep _)
  · simp [requestable]

/-- On the file path of a stored page `goquery.NewDocument` fails, whatever is served. -/
theorem newDocument_filePath (baseDir : String) (u : URL) (served : Option (List Element)) :
    NewDocument (filePath baseDir u) served = none := by
  simp [NewDocument, filePath_not_requestable]

/-- What a step of `download` starts: a task is started only by the action of lines
118-122, which leaves the call at the send of line 123; the send ends the call. -/
theorem download_spawn {env : Env} {inp : Input} {sh : Shared} {c : Call}
    {o : Outcome (Option Call)} (h : download env inp sh c = some o) :
    (∀ g', o.spawned = some g' → o.next = some { c with pc := .send } ∧
      g' = ⟨some ⟨c.u, c.baseDir, c.depth, filePath c.baseDir c.u, .newDocument⟩, none⟩) ∧
    (c.pc = .send → o.next = none ∧ o.spawned = none) := by
  unfold download at h
  simp only [Shared.log] at h
  repeat' split at h
  all_goals
    first
    | contradiction
    | (simp only [Option.some.injEq] at h
       subst h
       simp_all)

/-- A step of `parseHTML` that parses no document calls nothing and starts nothing. -/
theorem parseHTML_unparsed {env : Env} {inp : Input} {sh : Shared} {t : Task}
    {o : Outcome (Task × Option Call)} (h : parseHTML env inp sh t = some o)
    (ht : ∀ todo, t.loc ≠ .each todo) (hd : t.loc = .newDocument → inp.doc = none) :
    o.next.2 = none ∧ o.spawned = none ∧ o.next.1.filePath = t.filePath ∧
      ∀ todo, o.next.1.loc ≠ .each todo := by
  unfold parseHTML at h
  simp only [Shared.log] at h
  repeat' split at h
  all_goals
    first
    | contradiction
    | (simp only [Option.some.injEq] at h
       subst h
       simp_all)

theorem step_solo {env : Env} (s : State) (i : Nat) (inp : Input) (s' : State)
    (hs : Solo s) (hg : genuineAt s i inp = true) (h : step env s i inp = some s') :
    Solo s' := by
  obtain ⟨g, o, l1, l2, hgs, hi, hstep, rfl⟩ := step_inv h
  obtain ⟨m, hm | ⟨t, hm, hsend, hreq, hloc⟩⟩ := hs
  · -- `main` alone
    rw [hm] at hgs
    have hl1 : l1 = [] := by
      cases l1 with
      | nil => rfl
      | cons a l => simp at hgs
    subst hl1
    simp only [List.nil_append, List.cons.injEq] at hgs
    obtain ⟨rfl, rfl⟩ := hgs
    rcases gstep_cases hstep with ⟨c, o', hc, hd, rfl⟩ | ⟨t, o', -, ht, -, -⟩
    · obtain ⟨hsp, -⟩ := download_spawn hd
      cases hspawn : o'.spawned with
      | none => exact ⟨o'.next, Or.inl (by simp [hspawn])⟩
      | some g' =>
        obtain ⟨hn, rfl⟩ := hsp g' hspawn
        refine ⟨o'.next, Or.inr ⟨⟨c.u, c.baseDir, c.depth, filePath c.baseDir c.u, .newDocument⟩,
          by simp [hspawn], ?_, filePath_not_requestable _ _, ?_⟩⟩
        · intro c' hc'
          rw [hn] at hc'
          cases hc'
          rfl
        · simp
    · simp at ht
  · -- `main` and its task
    rw [hm] at hgs
    cases l1 with
    | nil =>
      simp only [List.nil_append, List.cons.injEq] at hgs
      obtain ⟨rfl, rfl⟩ := hgs
      rcases gstep_cases hstep with ⟨c, o', hc, hd, rfl⟩ | ⟨t', o', -, ht, -, -⟩
      · obtain ⟨-, hsd⟩ := download_spawn hd
        obtain ⟨hn, hspawn⟩ := hsd (hsend c hc)
        exact ⟨none, Or.inr ⟨t, by simp [hn, hspawn], by simp, hreq, hloc⟩⟩
      · simp at ht
    | cons a l1 =>
      cases l1 with
      | nil =>
        simp only [List.cons_append, List.nil_append, List.cons.injEq] at hgs
        obtain ⟨rfl, rfl, rfl⟩ := hgs
        subst hi
        rcases gstep_cases hstep with ⟨c, o', hc, -, -⟩ | ⟨t', o', -, ht, hp, rfl⟩
        · simp at hc
        · simp only [Option.some.injEq] at ht
          subst ht
          have hdoc : t.loc = .newDocument → inp.doc = none := by
            intro hl
            simp only [genuineAt, hm, List.length_singleton, List.getElem?_cons_succ,
              List.getElem?_cons_zero, hl, bne_self_eq_false, Bool.false_or,
              decide_eq_true_eq] at hg
            rw [hg]
            simp [NewDocument, hreq]
          obtain ⟨k1, k2, k3, k4⟩ := parseHTML_unparsed hp hloc hdoc
          refine ⟨m, Or.inr ⟨o'.next.1, ?_, hsend, by rw [k3]; exact hreq, k4⟩⟩
          simp [k1, k2]
      | cons b l1 => simp at hgs

theorem start_solo (seed : URL) (outputDir : String) : Solo (start seed outputDir) :=
  ⟨some ⟨seed, outputDir, 0, .enter⟩, Or.inl rfl⟩

theorem solo_inFlight (s : State) (h : Solo s) : inFlight s ≤ 1 := by
  obtain ⟨m, hm | ⟨t, hm, -, -, -⟩⟩ := h
  · simp [inFlight, hm, Goroutine.live]
  · simp only [inFlight, hm, List.countP_cons, List.countP_nil]
    split_ifs <;> simp_all [Goroutine.live]

theorem run_solo (env : Env) :
    ∀ (sched : List (Nat × Input)) (s : State), Solo s → genuine env s sched = true →
      Solo (run env s sched) := by
  intro sched
  induction sched with
  | nil => exact fun s hs _ => hs
  | cons a rest ih =>
    obtain ⟨i, inp⟩ := a
    intro s hs hg
    simp only [genuine, Bool.and_eq_true] at hg
    simp only [run]
    refine ih _ ?_ hg.2
    cases hstep : step env s i inp with
    | none => simpa using hs
    | some s' => simpa using step_solo s i inp s' hs hg.1 hstep

theorem genuine_take (env : Env) :
    ∀ (sched : List (Nat × Input)) (s : State) (k : Nat), genuine env s sched = true →
      genuine env s (sched.take k) = true := by
  intro sched
  induction sched with
  | nil => exact fun s k h => by simpa using h
  | cons a rest ih =>
    obtain ⟨i, inp⟩ := a
    intro s k h
    cases k with
    | zero => rfl
    | succ k =>
      simp only [genuine, Bool.and_eq_true, List.take_succ_cons] at h ⊢
      exact ⟨h.1, ih _ k h.2⟩

/-- Claim C11: in every execution of the crawl, at every point of it, the number
of `parseHTML` tasks started and not yet ended is at most the capacity of `sem`
(10), and so is the number of tokens in `sem`. An execution is a schedule from
the start state whose answers the program can receive: the result of
`goquery.NewDocument(filePath)` at line 128 is the one `NewDocument` gives on the
local path of the stored page, an error, since `http.Get` requests no string
without `//` and `filepath.Join` leaves none. So no task reaches line 156, the only
call of `download` is the one of `main`, and at most one task is ever in flight. -/
theorem concurrency_bound (env : Env) (seed : URL) (outputDir : String)
    (sched : List (Nat × Input)) (h : genuine env (start seed outputDir) sched = true)
    (k : Nat) :
    inFlight (run env (start seed outputDir) (sched.take k)) ≤ semCap ∧
    (run env (start seed outputDir) (sched.take k)).sh.sem ≤ semCap ∧
    inFlight (run env (start seed outputDir) (sched.take k)) ≤ 1 := by
  have h1 := solo_inFlight _
    (run_solo env (sched.take k) _ (start_solo seed outputDir) (genuine_take env sched _ k h))
  have h2 := (run_balanced env seed outputDir (sched.take k)).2.2.2
  refine ⟨Nat.le_trans h1 (by decide), h2, h1⟩

/-- The bound at a crawl of `http://site/a`, six actions into the schedule: the task
is started and in flight. -/
theorem concurrency_bound_witness :
    genuine (siteEnv 0) (start siteA "out") storedPageSchedule = true ∧
    inFlight (run (siteEnv 0) (start siteA "out") (storedPageSchedule.take 6)) = 1 ∧
    (inFlight (run (siteEnv 0) (start siteA "out") (storedPageSchedule.take 6)) ≤ semCap ∧
      (run (siteEnv 0) (start siteA "out") (storedPageSchedule.take 6)).sh.sem ≤ semCap ∧
      inFlight (run (siteEnv 0) (start siteA "out") (storedPageSchedule.take 6)) ≤ 1) :=
  ⟨by decide, by decide,
    concurrency_bound (siteEnv 0) siteA "out" storedPageSchedule (by decide) 6⟩

set_option maxRecDepth 1000000

/-- Why the bound on the tasks rests on `NewDocument` and not on `sem`. Take a site
whose pages `/0`, `/1`, ... each link to the next, and a schedule that hands
`parseHTML` the document of each stored page, which `NewDocument` on a file path
never does (the schedule is not `genuine`). `main` runs `download` on `/0` up to
the send of line 123 and ten tasks in a row each follow one link up to that send:
eleven `parseHTML` tasks are then in flight while `sem` holds no token. A task is
started at line 119, before the send of line 123, so `sem` bounds the tokens (at
most 10 along every schedule) but not the tasks: along every schedule their
number is the number of tokens in `sem` plus the number of calls of `download`
standing at the send. -/
theorem chain_run_in_flight :
    genuine chainEnv (start ⟨"http", "site", "/0", "", ""⟩ "out")
      (List.replicate 6 (0, chainPage "/1") ++
        chainSchedule 1 ["/1", "/2", "/3", "/4", "/5", "/6", "/7", "/8", "/9", "/10"]) = false ∧
    inFlight chainRun = 11 ∧ chainRun.sh.sem = 0 ∧ sending chainRun = 11 ∧ semCap = 10 ∧
    (∀ env seed outputDir sched,
      (run env (start seed outputDir) sched).sh.sem ≤ semCap ∧
      inFlight (run env (start seed outputDir) sched) =
        (run env (start seed outputDir) sched).sh.sem +
          sending (run env (start seed outputDir) sched)) := by
  refine ⟨by decide, by decide, by decide, by decide, rfl, fun env seed outputDir sched => ?_⟩
  obtain ⟨h1, h2, h3, h4⟩ := run_balanced env seed outputDir sched
  exact ⟨h4, by omega⟩

/-- The code at the input of claim C16: in the crawl of `http://site/a`, after the
six actions of `main` up to line 122 the `parseHTML` task is started and `sem`
is still empty; the token is put into `sem` by the seventh action, the send of
line 123. In general the action of line 118-122 on an HTML response starts the
task and leaves `sem` as it is, and the send comes after it. What the claim says
of the release holds: a task that fails to parse, or has visited all elements,
goes to the deferred receive, and in every run each task started has its send
done or pending at line 123 and its receive done or the task still in flight. -/
theorem admission_order_example :
    (run (siteEnv 0) (start siteA "out") (List.replicate 6 (0, htmlPage))).sh.trace =
      [.call siteA 0, .get siteA 0, .mkdirAll "out", .create "out/a",
        .copy "out/a" "<html>", .go siteA 0 "out/a"] ∧
    inFlight (run (siteEnv 0) (start siteA "out") (List.replicate 6 (0, htmlPage))) = 1 ∧
    (run (siteEnv 0) (start siteA "out") (List.replicate 6 (0, htmlPage))).sh.sem = 0 ∧
    (run (siteEnv 0) (start siteA "out") (List.replicate 7 (0, htmlPage))).sh.trace =
      [.call siteA 0, .get siteA 0, .mkdirAll "out", .create "out/a",
        .copy "out/a" "<html>", .go siteA 0 "out/a", .send] ∧
    (∀ env inp sh c resp, c.pc = .dispatch resp → isHTML resp = true →
      ∃ o g, download env inp sh c = some o ∧ o.spawned = some g ∧ o.sh.sem = sh.sem ∧
        o.next = some { c with pc := .send }) ∧
    (∀ env inp sh t, (t.loc = .newDocument ∧ inp.doc = none) ∨ t.loc = .each [] →
      parseHTML env inp sh t = some ⟨sh, ({ t with loc := .recv }, none), none⟩) ∧
    (∀ env seed outputDir sched,
      sends (run env (start seed outputDir) sched).sh.trace +
          sending (run env (start seed outputDir) sched) =
        spawns (run env (start seed outputDir) sched).sh.trace ∧
      recvs (run env (start seed outputDir) sched).sh.trace +
          inFlight (run env (start seed outputDir) sched) =
        spawns (run env (start seed outputDir) sched).sh.trace) := by
  refine ⟨by decide, by decide, by decide, by decide, ?_, ?_, ?_⟩
  · intro env inp sh c resp hpc hh
    refine ⟨⟨sh.log (.go c.u c.depth (filePath c.baseDir c.u)), some { c with pc := .send },
      some ⟨some ⟨c.u, c.baseDir, c.depth, filePath c.baseDir c.u, .newDocument⟩, none⟩⟩,
      _, ?_, rfl, rfl, rfl⟩
    simp only [download, hpc, hh, if_true]
  · intro env inp sh t ht
    rcases ht with ⟨h1, h2⟩ | h1
    · simp [parseHTML, h1, h2]
    · simp [parseHTML, h1]
  · intro env seed outputDir sched
    obtain ⟨h1, h2, -, -⟩ := run_balanced env seed outputDir sched
    exact ⟨h1, h2⟩

/-! ## One critical section -/

theorem actionsOf_append (j i : Nat) (a : Act) (log : List (Nat × Act)) :
    actionsOf j (log ++ [(i, a)]) = actionsOf j log ++ (if i = j then [a] else []) := by
  by_cases h : i = j
  · simp [actionsOf, List.filter_append, h]
  · simp [actionsOf, List.filter_append, List.filter_cons, h]

theorem holder_append (log : List (Nat × Act)) (e : Nat × Act) :
    holder (log ++ [e]) = (holder log).bind fun h => holderAfter h e := by
  simp [holder, List.foldl_append]

/-- What one action of a call does to its history and to the holder of the mutex. -/
theorem caller_step_holder {mutex m : Bool} {visited v : String → Bool} {c c' : Caller}
    {a : Act} (i : Nat) (h : Option Nat)
    (hstep : c.step mutex visited = some (m, v, c', a))
    (hm : mutex = h.isSome) (hin : c.pc.inside = true ↔ h = some i) :
    c'.pc.history = c.pc.history ++ [a] ∧
    ∃ h', holderAfter h (i, a) = some h' ∧ m = h'.isSome ∧
      (c'.pc.inside = true ↔ h' = some i) ∧ ∀ j, j ≠ i → (h' = some j ↔ h = some j) := by
  obtain ⟨key, pc⟩ := c
  cases pc <;> simp only [Caller.step] at hstep
  case lock =>
    split at hstep
    · cases hstep
    · rename_i hfree
      simp only [Option.some.injEq, Prod.mk.injEq] at hstep
      obtain ⟨rfl, rfl, rfl, rfl⟩ := hstep
      have hnone : h = none := by
        cases h with
        | none => rfl
        | some k => simp [hm] at hfree
      subst hnone
      refine ⟨rfl, some i, rfl, rfl, by simp [CsPc.inside], fun j hj => ?_⟩
      simp [Ne.symm hj]
  case check =>
    have hh : h = some i := hin.mp rfl
    subst hh
    split at hstep <;>
    · simp only [Option.some.injEq, Prod.mk.injEq] at hstep
      obtain ⟨rfl, rfl, rfl, rfl⟩ := hstep
      exact ⟨rfl, some i, by simp [holderAfter], hm, by simp [CsPc.inside], fun j hj => Iff.rfl⟩
  case unlockReturn =>
    have hh : h = some i := hin.mp rfl
    subst hh
    simp only [Option.some.injEq, Prod.mk.injEq] at hstep
    obtain ⟨rfl, rfl, rfl, rfl⟩ := hstep
    refine ⟨rfl, none, by simp [holderAfter], rfl, by simp [CsPc.inside], fun j hj => ?_⟩
    simp [Ne.symm hj]
  case returned => cases hstep
  case set =>
    have hh : h = some i := hin.mp rfl
    subst hh
    simp only [Option.some.injEq, Prod.mk.injEq] at hstep
    obtain ⟨rfl, rfl, rfl, rfl⟩ := hstep
    exact ⟨rfl, some i, by simp [holderAfter], hm, by simp [CsPc.inside], fun j hj => Iff.rfl⟩
  case unlock =>
    have hh : h = some i := hin.mp rfl
    subst hh
    simp only [Option.some.injEq, Prod.mk.injEq] at hstep
    obtain ⟨rfl, rfl, rfl, rfl⟩ := hstep
    refine ⟨rfl, none, by simp [holderAfter], rfl, by simp [CsPc.inside], fun j hj => ?_⟩
    simp [Ne.symm hj]
  case get =>
    have hne : h ≠ some i := fun hh => by simpa [CsPc.inside] using hin.mpr hh
    simp only [Option.some.injEq, Prod.mk.injEq] at hstep
    obtain ⟨rfl, rfl, rfl, rfl⟩ := hstep
    exact ⟨rfl, h, by simp [holderAfter], hm, by simpa [CsPc.inside] using hne,
      fun j hj => Iff.rfl⟩
  case fetched => cases hstep

theorem section_step_sectioned (s s' : Section) (i : Nat) (hs : Sectioned s)
    (hstep : s.step i = some s') : Sectioned s' := by
  unfold Section.step at hstep
  cases hc : s.callers[i]? with
  | none => simp [hc] at hstep
  | some c =>
    simp only [hc] at hstep
    cases hcs : c.step s.mutex s.visited with
    | none => simp [hcs] at hstep
    | some r =>
      obtain ⟨m, v, c', a⟩ := r
      simp only [hcs, Option.some.injEq] at hstep
      subst hstep
      obtain ⟨hhist, h, hh, hm, hin⟩ := hs
      obtain ⟨hi, -⟩ := List.getElem?_eq_some.mp hc
      obtain ⟨khist, h', kh, km, kin, kother⟩ :=
        caller_step_holder i h hcs hm (hin i c hc)
      refine ⟨?_, h', ?_, km, ?_⟩
      · intro j cj hj
        rw [actionsOf_append]
        by_cases hij : i = j
        · subst hij
          rw [List.getElem?_set_self hi] at hj
          cases hj
          rw [if_pos rfl, hhist i c hc, khist]
        · rw [List.getElem?_set_ne hij] at hj
          rw [if_neg hij, List.append_nil]
          exact hhist j cj hj
      · rw [holder_append, hh]
        exact kh
      · intro j cj hj
        by_cases hij : i = j
        · subst hij
          rw [List.getElem?_set_self hi] at hj
          cases hj
          exact kin
        · rw [List.getElem?_set_ne hij] at hj
          exact (hin j cj hj).trans (kother j (Ne.symm hij)).symm

theorem section_run_sectioned (sched : List Nat) :
    ∀ s : Section, Sectioned s → Sectioned (s.run sched) := by
  induction sched with
  | nil => exact fun s hs => hs
  | cons i rest ih =>
    intro s hs
    simp only [Section.run]
    apply ih
    cases hstep : s.step i with
    | none => simpa using hs
    | some s' => simpa using section_step_sectioned s s' i hs hstep

theorem section_start_sectioned (visited : String → Bool) (keys : List String) :
    Sectioned (Section.start visited keys) := by
  refine ⟨?_, none, rfl, rfl, ?_⟩
  · intro i c hc
    simp only [Section.start, List.getElem?_map, Option.map_eq_some'] at hc
    obtain ⟨k, -, rfl⟩ := hc
    rfl
  · intro i c hc
    simp only [Section.start, List.getElem?_map, Option.map_eq_some'] at hc
    obtain ⟨k, -, rfl⟩ := hc
    simp [CsPc.inside]

/-- The claim C17 fails on the code: a call of `download` on a URL not yet visited
locks the mutex once, reads the entry, writes it and unlocks, and only then
fetches. The mutex is not released between the read and the write, and the
fetch is not between them. -/
theorem two_sections_counterexample :
    (Section.run (Section.start (fun _ => false) ["http://site/a"]) [0, 0, 0, 0, 0]).log =
      [(0, .lock), (0, .check false), (0, .set), (0, .unlock), (0, .get)] ∧
    (CsPc.history .fetched).count .lock = 1 ∧ (CsPc.history .fetched).count .unlock = 1 ∧
    (CsPc.history .fetched).indexOf (.check false) + 1 = (CsPc.history .fetched).indexOf .set ∧
    (CsPc.history .fetched).indexOf .set < (CsPc.history .fetched).indexOf .unlock ∧
    (CsPc.history .fetched).indexOf .unlock < (CsPc.history .fetched).indexOf .get := by
  decide

/-- Claim C17 as amended (one critical section). In `download` the check "is this
URL already visited" and the write "mark this URL visited" are performed in one
critical section. For any number of calls on any keys, any initial map and any
schedule: every call has done exactly the actions of its program point, in the
order lock, read, write, unlock, fetch (or lock, read, unlock when the entry was
found), so it locks once, writes before it unlocks and fetches after; and the
log is a sequence of critical sections each by one call: while a call stands
between its lock and its unlock it holds the mutex, and no other call reads or
writes the map or locks. Run on its own, a call leaves the map as `claim` does
and goes on to the fetch exactly when `claim` proceeds. -/
theorem one_critical_section (visited : String → Bool) (keys : List String)
    (sched : List Nat) :
    (∀ i c, ((Section.start visited keys).run sched).callers[i]? = some c →
      actionsOf i ((Section.start visited keys).run sched).log = c.pc.history) ∧
    (∃ h, holder ((Section.start visited keys).run sched).log = some h ∧
      ((Section.start visited keys).run sched).mutex = h.isSome ∧
      ∀ i c, ((Section.start visited keys).run sched).callers[i]? = some c →
        (c.pc.inside = true ↔ h = some i)) ∧
    (∀ key, ((Section.start visited [key]).run [0, 0, 0, 0]).visited =
        (claim visited key).2 ∧
      ((Section.start visited [key]).run [0, 0, 0, 0]).callers =
        [⟨key, if (claim visited key).1 then .get else .returned⟩] ∧
      ((Section.start visited [key]).run [0, 0, 0, 0]).mutex = false) := by
  obtain ⟨h1, h2⟩ := section_run_sectioned sched _ (section_start_sectioned visited keys)
  refine ⟨h1, h2, fun key => ?_⟩
  by_cases hv : visited key = true
  · simp [Section.run, Section.step, Section.start, Caller.step, claim, hv]
  · simp [Section.run, Section.step, Section.start, Caller.step, claim, hv]

end L2_10

namespace L2_3

/-! ## `UnpackString` on well-formed input -/

theorem asciiDigit_latin1 : Latin1 asciiDigit := fun _ _ => rfl

theorem loop_cons_ok {IsDigit : Char → Bool} {st st' : Vars} {r : Char} (rest : List Char)
    (h : body IsDigit st r = .ok st') : loop IsDigit st (r :: rest) = loop IsDigit st' rest := by
  simp [loop, h]

/-- The body of the loop on a plain character: it is written once. -/
theorem body_plain {IsDigit : Char → Bool} (st : Vars) (c : Char) (hesc : st.escape = false)
    (hd : IsDigit c = false) (hb : c ≠ '\\') :
    body IsDigit st c =
      .ok { st with result := st.result ++ [c], prevRune := c, prevChar := true } := by
  simp [body, hesc, hd, hb]

/-- The body of the loop on a backslash and the character after it: the character
is written once, whatever it is. -/
theorem loop_escaped {IsDigit : Char → Bool} (st : Vars) (c : Char) (rest : List Char)
    (hesc : st.escape = false) :
    loop IsDigit st ('\\' :: c :: rest) =
      loop IsDigit
        { result := st.result ++ [c], prevRune := c, prevChar := true, escape := false } rest := by
  have h1 : body IsDigit st '\\' = .ok { st with escape := true } := by
    simp [body, hesc]
  rw [loop_cons_ok _ h1]
  have h2 : body IsDigit { st with escape := true } c =
      .ok { result := st.result ++ [c], prevRune := c, prevChar := true, escape := false } := by
    simp [body]
  rw [loop_cons_ok _ h2]

/-- The body of the loop on a count digit `1` to `9` behind a character: the
character is written as many more times as the digit says, less one. -/
theorem body_count {IsDigit : Char → Bool} (hl : Latin1 IsDigit) (st : Vars) (d : Char)
    (hesc : st.escape = false) (hprev : st.prevChar = true)
    (hd : 49 ≤ d.toNat ∧ d.toNat ≤ 57) :
    body IsDigit st d =
      .ok { st with result := st.result ++ List.replicate (d.toNat - 48 - 1) st.prevRune,
                    prevChar := false } := by
  have hdig : IsDigit d = true := by
    rw [hl d (by omega)]
    simp only [decide_eq_true_eq]
    omega
  have hbs : d ≠ '\\' := by
    intro h
    rw [h] at hd
    simp at hd
  have hat : Atoi1 d - 1 = ((d.toNat - 48 - 1 : Nat) : Int) := by
    unfold Atoi1
    rw [if_pos (by omega)]
    omega
  have hnn : ¬ ((d.toNat - 48 - 1 : Nat) : Int) < 0 := by omega
  simp only [body, hesc, hbs, hdig, hprev, hat, Repeat, hnn, Bool.false_eq_true, if_false,
    if_true, Int.toNat_ofNat]

/-- The loop over the character of a unit: it is written once. -/
theorem loop_char {IsDigit : Char → Bool} (u : PackUnit)
    (hu : u.escaped = false → IsDigit u.ch = false ∧ u.ch ≠ '\\') (st : Vars)
    (rest : List Char) (hesc : st.escape = false) :
    ∃ st1, loop IsDigit st (u.text ++ rest) = loop IsDigit st1 (u.count.toList ++ rest) ∧
      st1.escape = false ∧ st1.prevChar = true ∧ st1.prevRune = u.ch ∧
      st1.result = st.result ++ [u.ch] := by
  obtain ⟨esc, ch, count⟩ := u
  cases esc with
  | true =>
    refine ⟨{ result := st.result ++ [ch], prevRune := ch, prevChar := true,
              escape := false }, ?_, rfl, rfl, rfl, rfl⟩
    simp only [PackUnit.text, if_true, List.append_assoc, List.singleton_append,
      List.cons_append, List.nil_append]
    exact loop_escaped st ch _ hesc
  | false =>
    obtain ⟨hd, hb⟩ := hu rfl
    refine ⟨{ st with result := st.result ++ [ch], prevRune := ch, prevChar := true },
      ?_, hesc, rfl, rfl, rfl⟩
    simp only [PackUnit.text, Bool.false_eq_true, if_false, List.append_assoc,
      List.singleton_append, List.nil_append]
    exact loop_cons_ok _ (body_plain st ch hesc hd hb)

/-- The loop of `UnpackString` over one well-formed unit: its character is
written as often as its count says. -/
theorem loop_unit {IsDigit : Char → Bool} (hl : Latin1 IsDigit) (u : PackUnit)
    (hu : u.WellFormed IsDigit) (st : Vars) (rest : List Char) (hesc : st.escape = false) :
    ∃ st', loop IsDigit st (u.text ++ rest) = loop IsDigit st' rest ∧ st'.escape = false ∧
      st'.result = st.result ++ List.replicate u.times u.ch := by
  obtain ⟨st1, h1, hesc1, hprev1, hrune1, hres1⟩ := loop_char u hu.1 st rest hesc
  obtain ⟨esc, ch, count⟩ := u
  have hcount := hu.2
  cases count with
  | none =>
    refine ⟨st1, by simpa using h1, hesc1, ?_⟩
    simp [hres1, PackUnit.times]
  | some d =>
    have hd := hcount d rfl
    refine ⟨{ st1 with result := st1.result ++ List.replicate (d.toNat - 48 - 1) st1.prevRune,
                       prevChar := false }, ?_, ?_, ?_⟩
    · rw [h1]
      simp only [Option.toList_some, List.singleton_append]
      exact loop_cons_ok _ (body_count hl st1 d hesc1 hprev1 hd)
    · exact hesc1
    · simp only [hres1, hrune1, PackUnit.times, List.append_assoc, List.singleton_append]
      have : d.toNat - 48 = (d.toNat - 48 - 1) + 1 := by omega
      rw [this, List.replicate_succ]
      simp

theorem loop_units {IsDigit : Char → Bool} (hl : Latin1 IsDigit) (us : List PackUnit) :
    ∀ st : Vars, (∀ u ∈ us, u.WellFormed IsDigit) → st.escape = false →
      ∃ st', loop IsDigit st (us.flatMap PackUnit.text) = .ok st' ∧ st'.escape = false ∧
        st'.result = st.result ++ us.flatMap fun u => List.replicate u.times u.ch := by
  induction us with
  | nil => exact fun st _ hesc => ⟨st, rfl, hesc, by simp⟩
  | cons u us ih =>
    intro st hall hesc
    obtain ⟨st1, h1, hesc1, hres1⟩ :=
      loop_unit hl u (hall u (by simp)) st (us.flatMap PackUnit.text) hesc
    obtain ⟨st2, h2, hesc2, hres2⟩ := ih st1 (fun v hv => hall v (by simp [hv])) hesc1
    refine ⟨st2, ?_, hesc2, ?_⟩
    · rw [List.flatMap_cons, h1, h2]
    · rw [hres2, hres1, List.flatMap_cons, List.append_assoc]

/-- Claim C12 (`UnpackString` equals the reference unpacking on well-formed input).
For every input made of units, each a plain character (neither a digit nor a
backslash) or a backslash followed by any character, each optionally followed
by one decimal digit `1` to `9`, `UnpackString` returns, with no error and no
panic, the concatenation of each unit's character repeated as often as its
digit says, once when no digit follows. -/
theorem unpack_wellFormed (IsDigit : Char → Bool) (hl : Latin1 IsDigit) (us : List PackUnit)
    (hw : ∀ u ∈ us, u.WellFormed IsDigit) :
    UnpackString IsDigit (pack us) = .ok (unpackRef us) := by
  obtain ⟨st', h, hesc, hres⟩ := loop_units hl us ⟨[], false, false, Char.ofNat 0⟩ hw rfl
  unfold UnpackString
  by_cases hempty : pack us = ""
  · have hnil : us = [] := by
      cases us with
      | nil => rfl
      | cons u us =>
        exfalso
        have := congrArg String.data hempty
        obtain ⟨esc, ch, count⟩ := u
        cases esc <;> simp [pack, PackUnit.text] at this
    subst hnil
    simp [hempty, unpackRef]
  · rw [if_neg hempty]
    simp only [pack, h, hesc, Bool.false_eq_true, if_false, hres, unpackRef, List.nil_append]

/-- Witness of C12: the inputs `a4bc2d5e`, `abcd`, the empty input and `qwe\45` of
the test table of `main`. -/
theorem unpack_wellFormed_witness :
    UnpackString asciiDigit "a4bc2d5e" = .ok "aaaabccddddde" ∧
    UnpackString asciiDigit "abcd" = .ok "abcd" ∧
    UnpackString asciiDigit "" = .ok "" ∧
    UnpackString asciiDigit "qwe\\45" = .ok "qwe44444" :=
  ⟨unpack_wellFormed asciiDigit asciiDigit_latin1
      [⟨false, 'a', some '4'⟩, ⟨false, 'b', none⟩, ⟨false, 'c', some '2'⟩,
        ⟨false, 'd', some '5'⟩, ⟨false, 'e', none⟩] (by simp [PackUnit.WellFormed, asciiDigit]),
   unpack_wellFormed asciiDigit asciiDigit_latin1
      [⟨false, 'a', none⟩, ⟨false, 'b', none⟩, ⟨false, 'c', none⟩, ⟨false, 'd', none⟩]
      (by simp [PackUnit.WellFormed, asciiDigit]),
   unpack_wellFormed asciiDigit asciiDigit_latin1 [] (by simp [PackUnit.WellFormed, asciiDigit]),
   unpack_wellFormed asciiDigit asciiDigit_latin1
      [⟨false, 'q', none⟩, ⟨false, 'w', none⟩, ⟨false, 'e', none⟩, ⟨true, '4', some '5'⟩]
      (by simp [PackUnit.WellFormed, asciiDigit])⟩

/-! ## `UnpackString` on malformed input -/

theorem loop_cons_inv {IsDigit : Char → Bool} {st st' : Vars} {r : Char} {rest : List Char}
    (h : loop IsDigit st (r :: rest) = .ok st') :
    ∃ st1, body IsDigit st r = .ok st1 ∧ loop IsDigit st1 rest = .ok st' := by
  rw [loop] at h
  cases hb : body IsDigit st r with
  | ok st1 => exact ⟨st1, rfl, by simpa [hb] using h⟩
  | error msg => simp [hb] at h
  | panic msg => simp [hb] at h

/-- An input on which the loop ends without error, panic and pending backslash is
made of units. -/
theorem loop_ok_tail {IsDigit : Char → Bool} (input : List Char) :
    ∀ st st' : Vars, loop IsDigit st input = .ok st' → st'.escape = false →
      Tail IsDigit st.escape st.prevChar input := by
  induction input with
  | nil =>
    intro st st' h hesc
    simp only [loop, Result.ok.injEq] at h
    subst h
    exact ⟨[], by simp, by simp [hesc]⟩
  | cons r rest ih =>
    intro st st' h hesc
    obtain ⟨st1, hb, hl⟩ := loop_cons_inv h
    have ih1 := ih st1 st' hl hesc
    unfold body at hb
    split at hb
    · -- after a backslash
      rename_i he
      simp only [Result.ok.injEq] at hb
      subst hb
      obtain ⟨us, hus, hrest⟩ := ih1
      simp only [Bool.false_eq_true, if_false, true_and] at hrest
      refine ⟨us, hus, ?_⟩
      rw [if_pos he]
      rcases hrest with hrest | ⟨d, hd, hrest⟩
      · exact ⟨r, none, by simp, by simp [hrest]⟩
      · exact ⟨r, some d, by simpa using hd, by simp [hrest]⟩
    · rename_i he
      split at hb
      · -- a backslash
        rename_i hr
        simp only [Result.ok.injEq] at hb
        subst hb
        obtain ⟨us, hus, hrest⟩ := ih1
        simp only [if_true] at hrest
        obtain ⟨c, cnt, hcnt, hrest⟩ := hrest
        refine ⟨⟨true, c, cnt⟩ :: us, ?_, ?_⟩
        · intro u hu
          rcases List.mem_cons.mp hu with rfl | hu
          · exact ⟨by simp, hcnt⟩
          · exact hus u hu
        · rw [if_neg he]
          left
          simp [hrest, hr, PackUnit.text]
      · rename_i hr
        split at hb
        · -- a digit
          rename_i hd
          split at hb
          · rename_i hp
            split at hb
            · simp only [Result.ok.injEq] at hb
              subst hb
              obtain ⟨us, hus, hrest⟩ := ih1
              have he' : st.escape = false := by simpa using he
              simp only [he', Bool.false_eq_true, if_false, false_and, or_false] at hrest
              refine ⟨us, hus, ?_⟩
              rw [if_neg he]
              exact Or.inr ⟨hp, r, hd, by rw [hrest]⟩
            · cases hb
            · cases hb
          · cases hb
        · -- a plain character
          rename_i hd
          simp only [Result.ok.injEq] at hb
          subst hb
          obtain ⟨us, hus, hrest⟩ := ih1
          have he' : st.escape = false := by simpa using he
          simp only [he', Bool.false_eq_true, if_false, true_and] at hrest
          have hplain : IsDigit r = false ∧ r ≠ '\\' := ⟨by simpa using hd, hr⟩
          rcases hrest with hrest | ⟨d, hdd, hrest⟩
          · refine ⟨⟨false, r, none⟩ :: us, ?_, ?_⟩
            · intro u hu
              rcases List.mem_cons.mp hu with rfl | hu
              · exact ⟨fun _ => hplain, by simp⟩
              · exact hus u hu
            · rw [if_neg he]
              left
              simp [hrest, PackUnit.text]
          · refine ⟨⟨false, r, some d⟩ :: us, ?_, ?_⟩
            · intro u hu
              rcases List.mem_cons.mp hu with rfl | hu
              · exact ⟨fun _ => hplain, by simpa using hdd⟩
              · exact hus u hu
            · rw [if_neg he]
              left
              simp [hrest, PackUnit.text]

theorem backslash_not_digit {IsDigit : Char → Bool} (hl : Latin1 IsDigit) :
    IsDigit '\\' = false := by
  rw [hl '\\' (by decide)]
  decide

/-- The loop over a unit: it goes on without pending backslash, or panics. -/
theorem loop_unit_valid {IsDigit : Char → Bool} (hl : Latin1 IsDigit) (u : PackUnit)
    (hu : u.Valid IsDigit) (st : Vars) (rest : List Char) (hesc : st.escape = false) :
    (∃ st', loop IsDigit st (u.text ++ rest) = loop IsDigit st' rest ∧ st'.escape = false) ∨
    ∃ msg, loop IsDigit st (u.text ++ rest) = .panic msg := by
  obtain ⟨st1, h1, hesc1, hprev1, -, -⟩ := loop_char u hu.1 st rest hesc
  cases hc : u.count with
  | none =>
    rw [hc] at h1
    exact Or.inl ⟨st1, by simpa using h1, hesc1⟩
  | some d =>
    rw [hc] at h1
    have hd : IsDigit d = true := hu.2 d hc
    have hbs : d ≠ '\\' := by
      intro h
      rw [h, backslash_not_digit hl] at hd
      cases hd
    rw [h1]
    simp only [Option.toList_some, List.singleton_append, loop, body, hesc1, hbs, hd, hprev1,
      Bool.false_eq_true, if_false, if_true]
    cases hr : Repeat st1.prevRune (Atoi1 d - 1) with
    | ok s => exact Or.inl ⟨_, rfl, rfl⟩
    | error msg =>
      unfold Repeat at hr
      split at hr <;> cases hr
    | panic msg => exact Or.inr ⟨msg, rfl⟩

theorem loop_units_valid {IsDigit : Char → Bool} (hl : Latin1 IsDigit) (us : List PackUnit) :
    ∀ st : Vars, (∀ u ∈ us, u.Valid IsDigit) → st.escape = false →
      (∃ st', loop IsDigit st (us.flatMap PackUnit.text) = .ok st' ∧ st'.escape = false) ∨
      ∃ msg, loop IsDigit st (us.flatMap PackUnit.text) = .panic msg := by
  induction us with
  | nil => exact fun st _ hesc => Or.inl ⟨st, rfl, hesc⟩
  | cons u us ih =>
    intro st hall hesc
    rw [List.flatMap_cons]
    rcases loop_unit_valid hl u (hall u (by simp)) st (us.flatMap PackUnit.text) hesc with
      ⟨st1, h1, hesc1⟩ | ⟨msg, h1⟩
    · rw [h1]
      exact ih st1 (fun v hv => hall v (by simp [hv])) hesc1
    · exact Or.inr ⟨msg, h1⟩

/-- Every error of the loop is the error `invalid string format`. -/
theorem loop_error {IsDigit : Char → Bool} (input : List Char) :
    ∀ (st : Vars) (msg : String), loop IsDigit st input = .error msg →
      msg = "invalid string format" := by
  induction input with
  | nil => intro st msg h; cases h
  | cons r rest ih =>
    intro st msg h
    rw [loop] at h
    cases hb : body IsDigit st r with
    | ok st1 =>
      rw [hb] at h
      exact ih st1 msg h
    | panic m =>
      rw [hb] at h
      cases h
    | error m =>
      rw [hb] at h
      simp only [Result.error.injEq] at h
      subst h
      unfold body at hb
      repeat' split at hb
      all_goals first
        | (cases hb; rfl)
        | (cases hb; rename_i hrep; unfold Repeat at hrep; split at hrep <;> cases hrep)
        | cases hb

/-- An input made of units starts with a backslash or a character that is not a
digit; in the second case what follows is units, possibly behind one character. -/
theorem units_head {IsDigit : Char → Bool} (us : List PackUnit)
    (hus : ∀ u ∈ us, u.Valid IsDigit) (c : Char) (rest : List Char)
    (h : us.flatMap PackUnit.text = c :: rest) :
    c = '\\' ∨ (IsDigit c = false ∧ ∃ us' : List PackUnit, (∀ u ∈ us', u.Valid IsDigit) ∧
      (rest = us'.flatMap PackUnit.text ∨ ∃ d, rest = d :: us'.flatMap PackUnit.text)) := by
  cases us with
  | nil => simp at h
  | cons u us' =>
    obtain ⟨esc, ch, count⟩ := u
    have hu := hus ⟨esc, ch, count⟩ (by simp)
    cases esc with
    | true =>
      left
      simp [PackUnit.text] at h
      exact h.1.symm
    | false =>
      right
      simp only [List.flatMap_cons, PackUnit.text, Bool.false_eq_true, if_false,
        List.nil_append, List.singleton_append, List.cons_append, List.cons.injEq] at h
      obtain ⟨rfl, hrest⟩ := h
      refine ⟨(hu.1 rfl).1, us', fun v hv => hus v (by simp [hv]), ?_⟩
      cases count with
      | none => exact Or.inl (by simpa using hrest.symm)
      | some d => exact Or.inr ⟨d, by simpa using hrest.symm⟩

theorem malformed_a05 {IsDigit : Char → Bool} (hl : Latin1 IsDigit) :
    Malformed IsDigit "a05" := by
  have h0 : IsDigit '0' = true := by rw [hl '0' (by decide)]; decide
  have h5 : IsDigit '5' = true := by rw [hl '5' (by decide)]; decide
  rintro ⟨us, hus, hpack⟩
  have hdata : us.flatMap PackUnit.text = ['a', '0', '5'] := (congrArg String.data hpack).symm
  rcases units_head us hus 'a' ['0', '5'] hdata with h | ⟨-, us', hus', hrest | ⟨d, hrest⟩⟩
  · exact absurd h (by decide)
  · rcases units_head us' hus' '0' ['5'] hrest.symm with h | ⟨h, -⟩
    · exact absurd h (by decide)
    · rw [h0] at h; cases h
  · simp only [List.cons.injEq] at hrest
    rcases units_head us' hus' '5' [] hrest.2.symm with h | ⟨h, -⟩
    · exact absurd h (by decide)
    · rw [h5] at h; cases h

/-- The code at the input of claim C13: the input `a05` is malformed, the digit `5`
standing directly behind the count digit `0`, and `UnpackString` does not return
the error: it panics at the `0` before it, in `strings.Repeat` with the count
`-1`. The inputs `45` and `a4\` of the test table are rejected. On every input on
which it does not panic, `UnpackString` returns the error
`invalid string format` exactly when the input is malformed. -/
theorem unpack_rejects_example :
    (∀ IsDigit, Latin1 IsDigit →
      UnpackString IsDigit "a05" = .panic "strings: negative Repeat count" ∧
      Malformed IsDigit "a05") ∧
    UnpackString asciiDigit "45" = .error "invalid string format" ∧
    UnpackString asciiDigit "a4\\" = .error "invalid string format" ∧
    (∀ IsDigit input, Latin1 IsDigit → (∀ msg, UnpackString IsDigit input ≠ .panic msg) →
      (UnpackString IsDigit input = .error "invalid string format" ↔
        Malformed IsDigit input)) := by
  refine ⟨fun IsDigit hl => ⟨?_, malformed_a05 hl⟩, by decide, by decide, ?_⟩
  · have ha : IsDigit 'a' = false := by rw [hl 'a' (by decide)]; decide
    have h0 : IsDigit '0' = true := by rw [hl '0' (by decide)]; decide
    have hne : ("a05" : String) ≠ "" := by decide
    have hat : Atoi1 '0' - 1 < 0 := by decide
    have hdata : ("a05" : String).data = ['a', '0', '5'] := rfl
    simp [UnpackString, hne, hdata, loop, body, ha, h0, Repeat, hat]
  · intro IsDigit input hl hnp
    constructor
    · rintro herr ⟨us, hus, rfl⟩
      unfold UnpackString at herr
      split at herr
      · cases herr
      · rcases loop_units_valid hl us ⟨[], false, false, Char.ofNat 0⟩ hus rfl with
          ⟨st', h, hesc⟩ | ⟨msg, h⟩
        · simp [pack, h, hesc] at herr
        · simp [pack, h] at herr
    · intro hmal
      cases hres : UnpackString IsDigit input with
      | panic msg => exact absurd hres (hnp msg)
      | error msg =>
        unfold UnpackString at hres
        split at hres
        · cases hres
        · cases hl' : loop IsDigit ⟨[], false, false, Char.ofNat 0⟩ input.data with
          | ok st =>
            rw [hl'] at hres
            simp only at hres
            split at hres
            · simp only [Result.error.injEq] at hres
              rw [← hres]
            · cases hres
          | error m =>
            rw [hl'] at hres
            simp only [Result.error.injEq] at hres
            rw [← hres, loop_error _ _ _ hl']
          | panic m =>
            rw [hl'] at hres
            cases hres
      | ok v =>
        exfalso
        apply hmal
        unfold UnpackString at hres
        split at hres
        · rename_i hempty
          exact ⟨[], by simp, by simp [hempty, pack]⟩
        · cases hl' : loop IsDigit ⟨[], false, false, Char.ofNat 0⟩ input.data with
          | ok st =>
            rw [hl'] at hres
            simp only at hres
            split at hres
            · cases hres
            · rename_i hesc
              obtain ⟨us, hus, htail⟩ := loop_ok_tail input.data _ st hl' (by simpa using hesc)
              simp only [Bool.false_eq_true, if_false, false_and, or_false] at htail
              exact ⟨us, hus, String.ext htail⟩
          | error m =>
            rw [hl'] at hres
            cases hres
          | panic m =>
            rw [hl'] at hres
            cases hres

/-! ## `UnpackString` is not total -/

/-- The code at the input of claim C18: on `a0` the count is 0, the repeat count
`count-1` passed to `strings.Repeat` is `-1`, and `UnpackString` panics instead
of returning; the same happens with every digit outside the Latin-1 range
behind a character, for which `strconv.Atoi` fails and leaves the count 0. -/
theorem unpack_panics_example :
    (∀ IsDigit, Latin1 IsDigit →
      UnpackString IsDigit "a0" = .panic "strings: negative Repeat count") ∧
    Atoi1 '0' - 1 = -1 ∧
    Repeat 'a' (Atoi1 '0' - 1) = .panic "strings: negative Repeat count" ∧
    (∀ IsDigit d, Latin1 IsDigit → IsDigit d = true → 255 < d.toNat →
      Atoi1 d - 1 = -1 ∧
      UnpackString IsDigit ⟨['a', d]⟩ = .panic "strings: negative Repeat count") := by
  refine ⟨fun IsDigit hl => ?_, by decide, by decide, fun IsDigit d hl hd hbig => ?_⟩
  · have ha : IsDigit 'a' = false := by rw [hl 'a' (by decide)]; decide
    have h0 : IsDigit '0' = true := by rw [hl '0' (by decide)]; decide
    have hne : ("a0" : String) ≠ "" := by decide
    have hat : Atoi1 '0' - 1 < 0 := by decide
    have hdata : ("a0" : String).data = ['a', '0'] := rfl
    simp [UnpackString, hne, hdata, loop, body, ha, h0, Repeat, hat]
  · have ha : IsDigit 'a' = false := by rw [hl 'a' (by decide)]; decide
    have hat : Atoi1 d = 0 := by
      unfold Atoi1
      rw [if_neg (by omega)]
    have hbs : d ≠ '\\' := by
      intro h
      rw [h] at hbig
      simp at hbig
    have hne : (⟨['a', d]⟩ : String) ≠ "" := by
      intro h
      have := congrArg String.data h
      simp at this
    refine ⟨by rw [hat]; rfl, ?_⟩
    simp [UnpackString, hne, loop, body, ha, hd, hbs, Repeat, hat]

end L2_3

namespace L2_5

/-! ## Keys and case in `findAnagramSets` -/

theorem entry_key {group : List String} {k : String} {g : List String}
    (h : entry group = some (k, g)) :
    2 ≤ group.length ∧ g = sortStrings group ∧ g.head? = some k := by
  unfold entry at h
  split at h
  · cases h
  · rename_i hlen
    split at h
    · cases h
    · rename_i key rest hs
      simp only [Option.some.injEq, Prod.mk.injEq] at h
      obtain ⟨rfl, rfl⟩ := h
      exact ⟨by omega, hs.symm, rfl⟩

/-- The code at the input of claim C14: for the words `ba`, `ab` the one anagram
set is keyed by `ab`, the least of its words, while the word of the set that
occurs first in the input is `ba`; likewise `тяпка`, `пятка` is keyed by
`пятка`. Line 31 takes `group[0]` after the group is sorted at line 29. In
general every entry of the result holds the sorted list of a group of two or
more words, under the first word of that sorted list as its key. -/
theorem anagram_key_example :
    findAnagramSets ["ba", "ab"] = [("ab", ["ab", "ba"])] ∧
    findAnagramSets ["тяпка", "пятка"] = [("пятка", ["пятка", "тяпка"])] ∧
    (∀ words k g, (k, g) ∈ findAnagramSets words →
      ∃ group, 2 ≤ group.length ∧ g = sortStrings group ∧ g.head? = some k) := by
  refine ⟨by decide, by decide, ?_⟩
  intro words k g h
  simp only [findAnagramSets, List.mem_filterMap] at h
  obtain ⟨kg, -, hentry⟩ := h
  exact ⟨kg.2, entry_key hentry⟩

/-- The code at the input of claim C15: `toLower` returns its argument unchanged,
so `Пятак` keeps its capital letter, its sorted letters differ from those of
`пятка` (those of `пятак` do not), and for the words of `main` the word `Пятак`
is in no anagram set. -/
theorem toLower_example :
    (∀ s, toLower s = s) ∧
    toLower "Пятак" = "Пятак" ∧ toLower "Пятак" ≠ "пятак" ∧
    sortLetters (toLower "Пятак") ≠ sortLetters (toLower "пятка") ∧
    sortLetters "пятак" = sortLetters "пятка" ∧
    findAnagramSets mainWords =
      [("пятка", ["пятка", "тяпка"]), ("листок", ["листок", "слиток", "столик"])] ∧
    (∀ kg ∈ findAnagramSets mainWords, "Пятак" ∉ kg.2) := by
  refine ⟨fun _ => rfl, by decide, by decide, by decide, by decide, by decide, by decide⟩

end L2_5

namespace L2_7

/-! ## Field selection and the index `field-1` -/

theorem wrap_sub_one (f : Int) (h0 : 0 ≤ f) (h1 : f < 2 ^ 63) : wrap (f - 1) = f - 1 := by
  unfold wrap
  omega

/-- Field numbers from 1 on never index out of range. -/
theorem selectFields_ok (parts : List String) (fields : List Int) :
    ∀ output, (∀ f ∈ fields, 1 ≤ f ∧ f < 2 ^ 63) →
      ∃ out, selectFields parts fields output = .ok out := by
  induction fields with
  | nil => exact fun output _ => ⟨output, rfl⟩
  | cons f fields ih =>
    intro output hall
    obtain ⟨h1, h2⟩ := hall f (by simp)
    have hw := wrap_sub_one f (by omega) h2
    rw [selectFields, hw]
    split
    · rename_i hlt
      have hidx : (f - 1).toNat < parts.length := by omega
      rw [if_pos (by omega), List.getElem?_eq_getElem hidx]
      exact ih _ (fun g hg => hall g (by simp [hg]))
    · exact ih _ (fun g hg => hall g (by simp [hg]))

/-- A field number 0 indexes `parts` at -1. -/
theorem selectFields_zero (parts : List String) (fields : List Int) :
    ∀ output, 0 ∈ fields → (∀ f ∈ fields, 0 ≤ f ∧ f < 2 ^ 63) →
      selectFields parts fields output = .error (-1) := by
  induction fields with
  | nil => intro output h; simp at h
  | cons f fields ih =>
    intro output hmem hall
    obtain ⟨h1, h2⟩ := hall f (by simp)
    have hw := wrap_sub_one f h1 h2
    by_cases hf : f = 0
    · subst hf
      have hw0 : wrap (0 - 1) = -1 := by decide
      rw [selectFields, hw0, if_pos (by omega), if_neg (by omega)]
    · have hmem' : 0 ∈ fields := by
        rcases List.mem_cons.mp hmem with h | h
        · exact absurd h.symm hf
        · exact h
      rw [selectFields, hw]
      split
      · rename_i hlt
        have hidx : (f - 1).toNat < parts.length := by omega
        rw [if_pos (by omega), List.getElem?_eq_getElem hidx]
        exact ih _ hmem' (fun g hg => hall g (by simp [hg]))
      · exact ih _ hmem' (fun g hg => hall g (by simp [hg]))

/-- The code at the input of claim C19: with `-f 0` the field number 0 passes the
guard `field-1 < len(parts)` of line 38, `-1` being less than the number of
parts, and `parts[field-1]` indexes at `-1`: the program panics. The same
happens with an item that is not a number (`strconv.Atoi` gives 0) and with a
range that starts at 0. In general a field list with a 0 in it indexes at `-1`
on every line, and a field list of numbers from 1 on never indexes out of
range. -/
theorem cut_index_example :
    parseFields "0" = some [0] ∧
    Split "a\tb" "\t" = ["a", "b"] ∧
    wrap (0 - 1) < (Split "a\tb" "\t").length ∧ ¬ 0 ≤ wrap (0 - 1) ∧
    cutLine [0] "\t" false "a\tb" = .panic (-1) ∧
    parseFields "x" = some [0] ∧
    parseFields "0-2" = some [0, 1, 2] ∧
    cutLine [0, 1, 2] "\t" false "a\tb" = .panic (-1) ∧
    (∀ parts fields, 0 ∈ fields → (∀ f ∈ fields, 0 ≤ f ∧ f < 2 ^ 63) →
      selectFields parts fields [] = .error (-1)) ∧
    (∀ parts fields, (∀ f ∈ fields, 1 ≤ f ∧ f < 2 ^ 63) →
      ∃ out, selectFields parts fields [] = .ok out) := by
  refine ⟨by decide, by decide, by decide, by decide, by decide, by decide, by decide,
    by decide, fun parts fields h0 hall => selectFields_zero parts fields [] h0 hall,
    fun parts fields hall => selectFields_ok parts fields [] hall⟩

end L2_7
